import Mathlib

/-
Verification development for the website link analyzer
(`link_analyzer.py`): a shallow embedding of the crawl / extract /
validate pipeline, together with proofs about the URL normalizer, the
link extractor, the breadth-first discovery engine and the link
validator.

Strings are modelled as `List Char` (`Str`), and the Python string
operations the source uses are given as executable definitions.  The
source delegates URL resolution to CPython's `urllib.parse`
(`urljoin`, `urlsplit`, `urlparse`, `urlunsplit`, `urlunparse`); those
stdlib functions are modelled here faithfully after CPython 3.11's
`urllib/parse.py`, since the behaviour of `_normalize_url` is
determined by them.  A raised exception is modelled as `none`
(`Option`), matching the `try/except` structure of the source.
-/

namespace LinkAnalyzer

/-- Strings are lists of characters. -/
abbrev Str := List Char

/-! ## Python string primitives -/

/-- Python `s.split(c, 1)`: the part before the first occurrence of `c`,
and `some` tail after it when `c` occurs. -/
def pySplit1 (c : Char) : Str → Str × Option Str
  | [] => ([], none)
  | x :: xs =>
    if x = c then ([], some xs)
    else
      let r := pySplit1 c xs
      (x :: r.1, r.2)

/-- Python `s.split(c)` (split on every occurrence; never returns `[]`). -/
def pySplitOnChar (c : Char) : Str → List Str
  | [] => [[]]
  | x :: xs =>
    if x = c then [] :: pySplitOnChar c xs
    else
      match pySplitOnChar c xs with
      | [] => [[x]]
      | h :: t => (x :: h) :: t

/-- Python `sep.join(parts)` for a one-character separator. -/
def pyJoin (c : Char) : List Str → Str
  | [] => []
  | [p] => p
  | p :: q :: t => p ++ c :: pyJoin c (q :: t)

/-- Python `s.rstrip('/')`: remove every trailing `'/'`. -/
def pyRstripSlash (s : Str) : Str :=
  (s.reverse.dropWhile (fun c => c = '/')).reverse

/-- A WHATWG C0 control character or space (code point at most 0x20). -/
def isC0OrSpace (c : Char) : Bool := c.toNat ≤ 32

/-- Python `s.lstrip(_WHATWG_C0_CONTROL_OR_SPACE)` as done by `urlsplit`. -/
def pyLstripC0 (s : Str) : Str := s.dropWhile isC0OrSpace

/-- Python `s.strip(_WHATWG_C0_CONTROL_OR_SPACE)` (both ends). -/
def pyStripC0 (s : Str) : Str :=
  ((s.dropWhile isC0OrSpace).reverse.dropWhile isC0OrSpace).reverse

/-- The `_UNSAFE_URL_BYTES_TO_REMOVE` of `urllib.parse`: tab, CR, LF. -/
def isUnsafeUrlByte (c : Char) : Bool := c = '\t' ∨ c = '\r' ∨ c = '\n'

/-- Removal of tab/CR/LF everywhere, as `urlsplit` does via `str.replace`. -/
def removeUnsafeBytes (s : Str) : Str := s.filter (fun c => ¬ isUnsafeUrlByte c)

/-- ASCII lower-casing of one character (`str.lower` restricted to the
ASCII scheme characters it is applied to in `urlsplit`). -/
def pyLowerChar (c : Char) : Char :=
  if 'A' ≤ c ∧ c ≤ 'Z' then Char.ofNat (c.toNat + 32) else c

/-- ASCII lower-casing of a string. -/
def pyLower (s : Str) : Str := s.map pyLowerChar

/-- Python whitespace for `str.strip()` and the regex class `\s`
(ASCII part; the source only ever meets ASCII whitespace here). -/
def pyIsSpace (c : Char) : Bool :=
  c = ' ' ∨ c = '\t' ∨ c = '\n' ∨ c = '\r' ∨ c = Char.ofNat 11 ∨ c = Char.ofNat 12

/-- Python `s.strip()` (no argument: strip whitespace at both ends). -/
def pyStrip (s : Str) : Str :=
  ((s.dropWhile pyIsSpace).reverse.dropWhile pyIsSpace).reverse

/-! ## Model of CPython 3.11 `urllib.parse`

Modelled from `urllib/parse.py` of CPython 3.11 (the library
`link_analyzer.py` imports `urljoin` and `urlparse` from).  The NFKC
check of `_checknetloc`, which can only reject non-ASCII authorities,
is not modelled; every URL the claims are about is ASCII. -/

/-- The five components produced by `urlsplit`. -/
structure SplitResult where
  scheme : Str
  netloc : Str
  path : Str
  query : Str
  fragment : Str
deriving DecidableEq

/-- The six components produced by `urlparse`. -/
structure ParseResult where
  scheme : Str
  netloc : Str
  path : Str
  params : Str
  query : Str
  fragment : Str
deriving DecidableEq

/-- `scheme_chars` of `urllib.parse`. -/
def schemeChars (c : Char) : Bool :=
  ('a' ≤ c ∧ c ≤ 'z') ∨ ('A' ≤ c ∧ c ≤ 'Z') ∨ ('0' ≤ c ∧ c ≤ '9') ∨
    c = '+' ∨ c = '-' ∨ c = '.'

/-- A netloc delimiter (`'/'`, `'?'` or `'#'`), as used by `_splitnetloc`. -/
def isNetlocDelim (c : Char) : Bool := c = '/' ∨ c = '?' ∨ c = '#'

/-- `_splitnetloc(url, 2)`: the authority after the leading `"//"` and
the rest starting at the first of `'/'`, `'?'`, `'#'`. -/
def splitnetloc2 (url : Str) : Str × Str :=
  let r := url.drop 2
  (r.takeWhile (fun c => ¬ isNetlocDelim c), r.dropWhile (fun c => ¬ isNetlocDelim c))

/-- An ASCII hexadecimal digit, for the IPvFuture check. -/
def isHexDigitChar (c : Char) : Bool :=
  ('0' ≤ c ∧ c ≤ '9') ∨ ('a' ≤ c ∧ c ≤ 'f') ∨ ('A' ≤ c ∧ c ≤ 'F')

/-- An ASCII decimal digit. -/
def isDigitChar (c : Char) : Bool := '0' ≤ c ∧ c ≤ '9'

/-- Decimal value of a digit string. -/
def decimalValue (s : Str) : Nat :=
  s.foldl (fun a c => a * 10 + (c.toNat - 48)) 0

/-- One dotted-quad octet as accepted by `ipaddress.IPv4Address`:
one to three decimal digits, value at most 255, no leading zero. -/
def ipv4OctetOk (s : Str) : Bool :=
  s ≠ [] ∧ s.length ≤ 3 ∧ s.all isDigitChar ∧ decimalValue s ≤ 255 ∧
    (s.length = 1 ∨ s.take 1 ≠ ['0'])

/-- Textual IPv4 address as accepted by `ipaddress.IPv4Address`. -/
def ipv4AddressOk (s : Str) : Bool :=
  let parts := pySplitOnChar '.' s
  parts.length = 4 ∧ parts.all ipv4OctetOk

/-- One 16-bit IPv6 group: one to four hexadecimal digits. -/
def ipv6GroupOk (s : Str) : Bool :=
  s ≠ [] ∧ s.length ≤ 4 ∧ s.all isHexDigitChar

/-- Textual IPv6 address body (after an optional zone has been removed),
as accepted by `ipaddress.IPv6Address`: groups separated by `':'`, at
most one `"::"` elision, a trailing dotted-quad allowed. -/
def ipv6BodyOk (s : Str) : Bool :=
  let parts := pySplitOnChar ':' s
  let expandLast : List Str → List Str := fun ps =>
    match ps.getLast? with
    | some lastPart =>
      if '.' ∈ lastPart then
        if ipv4AddressOk lastPart then ps.dropLast ++ ["0".data, "0".data] else ps
      else ps
    | none => ps
  let ps := expandLast parts
  let lastIsIpv4 : Bool :=
    match parts.getLast? with
    | some lastPart => ('.' ∈ lastPart) ∧ ipv4AddressOk lastPart
    | none => false
  if ¬ (pySplitOnChar ':' s).all (fun p => p = [] ∨ ('.' ∈ p) ∨ ipv6GroupOk p) then false
  else if ('.' ∈ s) ∧ ¬ lastIsIpv4 then false
  else
    let empties := ps.countP (fun p => p = [])
    if empties = 0 then ps.length = 8
    else if empties = 1 then
      -- a single "::" in the middle: parts like a::b give one empty part
      ps.head? ≠ some [] ∧ ps.getLast? ≠ some [] ∧ ps.length ≤ 8
    else if empties = 2 then
      -- "::" at either end gives two empty parts; "::" alone gives three
      ((ps.head? = some [] ∧ ps.take 2 = [[], []] ∧ ps.getLast? ≠ some []) ∨
       (ps.getLast? = some [] ∧ (ps.drop (ps.length - 2)) = [[], []] ∧ ps.head? ≠ some [])) ∧
      ps.length ≤ 9
    else if empties = 3 then
      ps = [[], [], []]
    else false

/-- Textual IPv6 address with an optional nonempty `%zone` suffix. -/
def ipv6AddressOk (s : Str) : Bool :=
  let r := pySplit1 '%' s
  match r.2 with
  | none => ipv6BodyOk s
  | some zone => zone ≠ [] ∧ '%' ∉ zone ∧ ipv6BodyOk r.1

/-- `_check_bracketed_host` of `urllib.parse`: an IPvFuture literal
`v<hex>+.<rest>`, or an address accepted by `ipaddress.ip_address` that
is not an IPv4 address (bracketed IPv4 is rejected).  Returns `false`
where CPython raises `ValueError`. -/
def checkBracketedHost (hostname : Str) : Bool :=
  match hostname with
  | 'v' :: t =>
    let hexs := t.takeWhile isHexDigitChar
    let dotTail : Bool :=
      match t.drop hexs.length with
      | '.' :: rest => rest ≠ []
      | _ => false
    hexs ≠ [] ∧ dotTail
  | _ => ¬ ipv4AddressOk hostname ∧ ipv6AddressOk hostname

/-- The host between the first `'['` and the following `']'` of a netloc
(`netloc.partition('[')[2].partition(']')[0]`). -/
def bracketedHostOf (netloc : Str) : Str :=
  (((netloc.dropWhile (fun c => c ≠ '[')).drop 1).takeWhile (fun c => c ≠ ']'))

/-- The scheme scan of `urlsplit`: `some (scheme, rest)` when the URL
starts with a valid `scheme:`, otherwise `none`. -/
def schemeScan (url : Str) : Option (Str × Str) :=
  match url.findIdx? (fun c => c = ':') with
  | none => none
  | some i =>
    let headAlpha : Bool :=
      match url.head? with
      | some c => c.isAlpha
      | none => false
    if 0 < i ∧ headAlpha ∧ (url.take i).all schemeChars
    then some (pyLower (url.take i), url.drop (i + 1))
    else none

/-- CPython 3.11 `urlsplit(url, scheme, allow_fragments=True)`.
`none` models a raised `ValueError`. -/
def urlsplitE (url0 : Str) (scheme0 : Str) : Option SplitResult :=
  let url1 := removeUnsafeBytes (pyLstripC0 url0)
  let dflt := removeUnsafeBytes (pyStripC0 scheme0)
  let schUrl : Str × Str :=
    match schemeScan url1 with
    | some su => su
    | none => (dflt, url1)
  let sch := schUrl.1
  let url2 := schUrl.2
  let netRest : Option (Str × Str) :=
    if url2.take 2 = ['/', '/'] then
      let nr := splitnetloc2 url2
      if ('[' ∈ nr.1 ∧ ']' ∉ nr.1) ∨ (']' ∈ nr.1 ∧ '[' ∉ nr.1) then none
      else if '[' ∈ nr.1 ∧ ']' ∈ nr.1 then
        if checkBracketedHost (bracketedHostOf nr.1) then some nr else none
      else some nr
    else some ([], url2)
  match netRest with
  | none => none
  | some (netloc, url3) =>
    let pf := pySplit1 '#' url3
    let fragment := pf.2.getD []
    let url4 := pf.1
    let pq := pySplit1 '?' url4
    let query := pq.2.getD []
    let path := pq.1
    some ⟨sch, netloc, path, query, fragment⟩

/-- `uses_relative` of `urllib.parse` (CPython 3.11). -/
def usesRelative : List Str :=
  ["", "ftp", "http", "gopher", "nntp", "imap", "wais", "file", "https",
   "shttp", "mms", "prospero", "rtsp", "rtsps", "rtspu", "sftp", "svn",
   "svn+ssh", "ws", "wss"].map String.data

/-- `uses_netloc` of `urllib.parse` (CPython 3.11). -/
def usesNetloc : List Str :=
  ["", "ftp", "http", "gopher", "nntp", "telnet", "imap", "wais", "file",
   "mms", "https", "shttp", "snews", "prospero", "rtsp", "rtsps", "rtspu",
   "rsync", "svn", "svn+ssh", "sftp", "nfs", "git", "git+ssh", "ws",
   "wss"].map String.data

/-- `uses_params` of `urllib.parse` (CPython 3.11). -/
def usesParams : List Str :=
  ["", "ftp", "hdl", "prospero", "http", "imap", "https", "shttp", "rtsp",
   "rtsps", "rtspu", "sip", "sips", "mms", "sftp", "tel"].map String.data

/-- `_splitparams(url)`: split the parameters after the `';'` that
follows the last `'/'` (or the first `';'` if there is no `'/'`). -/
def splitparams (url : Str) : Str × Str :=
  if '/' ∈ url then
    let fromLastSlash := url.reverse.takeWhile (fun c => c ≠ '/')
    match fromLastSlash.reverse.findIdx? (fun c => c = ';') with
    | none => (url, [])
    | some j =>
      let i := (url.length - fromLastSlash.length) + j
      (url.take i, url.drop (i + 1))
  else
    match url.findIdx? (fun c => c = ';') with
    | none => (url, [])
    | some i => (url.take i, url.drop (i + 1))

/-- CPython 3.11 `urlparse(url, scheme, allow_fragments=True)`. -/
def urlparseE (url0 : Str) (scheme0 : Str) : Option ParseResult :=
  match urlsplitE url0 scheme0 with
  | none => none
  | some r =>
    if r.scheme ∈ usesParams ∧ ';' ∈ r.path then
      let pp := splitparams r.path
      some ⟨r.scheme, r.netloc, pp.1, pp.2, r.query, r.fragment⟩
    else
      some ⟨r.scheme, r.netloc, r.path, [], r.query, r.fragment⟩

/-- CPython 3.11 `urlunsplit`. -/
def urlunsplit (r : SplitResult) : Str :=
  let u1 :=
    if r.netloc ≠ [] ∨ (r.scheme ≠ [] ∧ r.scheme ∈ usesNetloc ∧ r.path.take 2 ≠ ['/', '/']) then
      '/' :: '/' :: (r.netloc ++ (if r.path ≠ [] ∧ r.path.take 1 ≠ ['/'] then '/' :: r.path else r.path))
    else r.path
  let u2 := if r.scheme ≠ [] then r.scheme ++ ':' :: u1 else u1
  let u3 := if r.query ≠ [] then u2 ++ '?' :: r.query else u2
  if r.fragment ≠ [] then u3 ++ '#' :: r.fragment else u3

/-- CPython 3.11 `urlunparse`. -/
def urlunparse (p : ParseResult) : Str :=
  urlunsplit ⟨p.scheme, p.netloc,
    (if p.params ≠ [] then p.path ++ ';' :: p.params else p.path),
    p.query, p.fragment⟩

/-- The dot-segment resolution loop of `urljoin`. -/
def resolveSegments (segments : List Str) : List Str :=
  segments.foldl (fun acc seg =>
    if seg = "..".data then acc.dropLast
    else if seg = ".".data then acc
    else acc ++ [seg]) []

/-- `segments[1:-1] = filter(None, segments[1:-1])`: drop empty segments
strictly between the first and the last. -/
def filterMiddle : List Str → List Str
  | [] => []
  | [x] => [x]
  | x :: y :: t =>
    match (y :: t).getLast? with
    | none => [x]
    | some lastSeg => x :: ((y :: t).dropLast.filter (fun s => s ≠ [])) ++ [lastSeg]

/-- CPython 3.11 `urljoin(base, url)`.  `none` models a raised
`ValueError` from URL parsing. -/
def urljoinE (base url : Str) : Option Str :=
  if base = [] then some url
  else if url = [] then some base
  else
    match urlparseE base [] with
    | none => none
    | some b =>
      match urlparseE url b.scheme with
      | none => none
      | some u =>
        if u.scheme ≠ b.scheme ∨ u.scheme ∉ usesRelative then some url
        else if u.scheme ∈ usesNetloc ∧ u.netloc ≠ [] then
          some (urlunparse u)
        else
          let netloc := if u.scheme ∈ usesNetloc then b.netloc else u.netloc
          if u.path = [] ∧ u.params = [] then
            some (urlunparse ⟨u.scheme, netloc, b.path, b.params,
              (if u.query = [] then b.query else u.query), u.fragment⟩)
          else
            let baseParts0 := pySplitOnChar '/' b.path
            let baseParts :=
              if baseParts0.getLast? ≠ some [] then baseParts0.dropLast else baseParts0
            let segments :=
              if u.path.take 1 = ['/'] then pySplitOnChar '/' u.path
              else filterMiddle (baseParts ++ pySplitOnChar '/' u.path)
            let resolved0 := resolveSegments segments
            let resolved :=
              if segments.getLast? = some ".".data ∨ segments.getLast? = some "..".data
              then resolved0 ++ [[]] else resolved0
            let rpath0 := pyJoin '/' resolved
            let rpath := if rpath0 = [] then ['/'] else rpath0
            some (urlunparse ⟨u.scheme, netloc, rpath, u.params, u.query, u.fragment⟩)

/-! ## The URL normalizer (`_normalize_url`) -/

/-- `_normalize_url(url, base_url)` of `link_analyzer.py`: split off the
fragment, resolve against the base with `urljoin`, reattach a nonempty
fragment, strip trailing slashes; on a raised exception return the
(fragment-stripped) `url` variable. -/
def normalizeUrl (url : Str) (baseUrl : Str) : Str :=
  let sp := pySplit1 '#' url
  let u1 := sp.1
  let anchor := sp.2.getD []
  match urljoinE baseUrl u1 with
  | none => u1
  | some absUrl =>
    pyRstripSlash (if anchor ≠ [] then absUrl ++ '#' :: anchor else absUrl)

/-! ## The link extractor (`extract_links_from_page`)

The markup parser (BeautifulSoup) is abstracted: the elements returned
by the `soup.find_all(tag, attr)` scan over the fixed selector
catalogue are given as a list of `Element`s (tag name, attribute name,
raw attribute value, display text), and `soup.get_text()` is given as
the page's text content.  The free-text URL scan is a faithful model
of the backtracking regex used by the source. -/

/-- A markup element as produced by the structured-attribute scan. -/
structure Element where
  tag : Str
  attrName : Str
  value : Str
  textContent : Str
deriving DecidableEq

/-- Internal/external classification of a reference. -/
inductive LinkType where
  | internal
  | external
deriving DecidableEq

/-- A discovered reference, as built by `extract_links_from_page`. -/
structure Link where
  url : Str
  source_page : Str
  tag : Str
  attrName : Str
  text : Str
  link_type : LinkType
deriving DecidableEq

/-- `_is_same_domain`: the URL's netloc equals the site's domain or is
empty; a parse error means `False`. -/
def isSameDomain (domain : Str) (url : Str) : Bool :=
  match urlsplitE url [] with
  | some r => r.netloc = domain ∨ r.netloc = []
  | none => false

/-- The `link_type` value of a reference. -/
def linkTypeFor (domain url : Str) : LinkType :=
  if isSameDomain domain url then .internal else .external

/-! ### The free-text URL pattern

Model of the compiled pattern
`https?://[^\s<>"{}|\^`[]()]+(?:\([^\s)]*\))*[^\s<>"{}|\^`[]().,;:!?]`
(written here without regex escapes), matched case-insensitively with
CPython `re` backtracking semantics and scanned with `findall`. -/

/-- The characters excluded by the first character class of the
pattern, besides whitespace. -/
def xExcludedChars : List Char :=
  ['<', '>', '"', Char.ofNat 123, Char.ofNat 125, '|', '\\', '^',
   Char.ofNat 96, '[', ']', '(', ')']

/-- The characters excluded by the final character class of the
pattern, besides whitespace: the bracket, quote and punctuation
delimiters. -/
def zExcludedChars : List Char :=
  xExcludedChars ++ ['.', ',', ';', ':', '!', '?']

/-- Membership in the repeated body class of the pattern. -/
def xClass (c : Char) : Bool := ¬ pyIsSpace c ∧ c ∉ xExcludedChars

/-- Membership in the inside-parentheses class `[^\s)]`. -/
def yClass (c : Char) : Bool := ¬ pyIsSpace c ∧ c ≠ ')'

/-- Membership in the final character class of the pattern. -/
def zClass (c : Char) : Bool := ¬ pyIsSpace c ∧ c ∉ zExcludedChars

/-- Match the final single character of the pattern; returns the
number of characters consumed. -/
def tryZ (cs : Str) : Option Nat :=
  match cs with
  | [] => none
  | c :: _ => if zClass c then some 1 else none

/-- Match one parenthesized group `\([^\s)]*\)` (greedy and
deterministic, since `)` is excluded from the inner class). -/
def tryGroup (cs : Str) : Option Nat :=
  match cs with
  | '(' :: t =>
    let y := t.takeWhile yClass
    match t.drop y.length with
    | ')' :: _ => some (y.length + 2)
    | _ => none
  | _ => none

/-- Match `(?:\([^\s)]*\))*` followed by the final class, with greedy
backtracking over the number of groups; fuel bounds the recursion. -/
def groupsThenZ : Nat → Str → Option Nat
  | 0, _ => none
  | fuel + 1, cs =>
    match tryGroup cs with
    | some g =>
      match groupsThenZ fuel (cs.drop g) with
      | some n => some (g + n)
      | none => tryZ cs
    | none => tryZ cs

/-- Backtrack the greedy `[...]+` run from length `k` downwards,
continuing with the group/final part of the pattern. -/
def tryXThen (cs : Str) : Nat → Option Nat
  | 0 => none
  | k + 1 =>
    match groupsThenZ ((cs.drop (k + 1)).length + 1) (cs.drop (k + 1)) with
    | some n => some (k + 1 + n)
    | none => tryXThen cs k

/-- Match the pattern body (everything after `https?://`). -/
def tryBody (cs : Str) : Option Nat :=
  tryXThen cs (cs.takeWhile xClass).length

/-- Match the case-insensitive prefix `https?://`; returns the number
of characters consumed. -/
def trySchemeLead (cs : Str) : Option Nat :=
  if pyLower (cs.take 4) = "http".data then
    if pyLower ((cs.drop 4).take 1) = "s".data ∧ (cs.drop 5).take 3 = "://".data then some 8
    else if (cs.drop 4).take 3 = "://".data then some 7
    else none
  else none

/-- Attempt a match of the whole pattern at the start of `cs`. -/
def tryMatchAt (cs : Str) : Option Nat :=
  match trySchemeLead cs with
  | some p =>
    match tryBody (cs.drop p) with
    | some b => some (p + b)
    | none => none
  | none => none

/-- `findall`: scan left to right, taking non-overlapping matches. -/
def scanAux : Nat → Str → List Str
  | 0, _ => []
  | _, [] => []
  | fuel + 1, c :: rest =>
    match tryMatchAt (c :: rest) with
    | some n => (c :: rest).take n :: scanAux fuel ((c :: rest).drop n)
    | none => scanAux fuel rest

/-- All URLs found in free text by the source's pattern. -/
def scanTextUrls (cs : Str) : List Str := scanAux (cs.length + 1) cs

/-! ### Extraction -/

/-- The structured-attribute half of `extract_links_from_page`: strip
each raw value, normalize it against the page URL, keep it when it is
nonempty and differs from the page URL. -/
def extractTagLinks (domain pageUrl : Str) (elements : List Element) : List Link :=
  elements.foldl (fun links el =>
    let raw := pyStrip el.value
    if raw ≠ [] then
      let n := normalizeUrl raw pageUrl
      if n ≠ [] ∧ n ≠ pageUrl then
        links ++ [⟨n, pageUrl, el.tag, el.attrName, el.textContent.take 100,
                   linkTypeFor domain n⟩]
      else links
    else links) []

/-- `extract_links_from_page`: the structured scan followed by the
free-text scan, where a text-derived reference is kept only when its
normalized URL was not already collected. -/
def extract_links_from_page (domain pageUrl : Str) (elements : List Element)
    (pageText : Str) : List Link :=
  (scanTextUrls pageText).foldl (fun links tu =>
    let n := normalizeUrl tu pageUrl
    if n ≠ [] ∧ n ≠ pageUrl ∧ n ∉ links.map (fun l => l.url) then
      links ++ [⟨n, pageUrl, "text".data, "content".data, tu.take 100,
                 linkTypeFor domain n⟩]
    else links) (extractTagLinks domain pageUrl elements)

/-! ## The link validator (`check_link_status`, `check_all_links`)

The network is abstracted as a probe outcome per URL: either a final
response (after the HEAD→GET and SSL fallbacks of the source) or one
of the exception classes the source catches.  The thread pool is
modelled sequentially; every property proved below is independent of
completion order. -/

/-- The outcome of the probe strategy for one URL. -/
inductive ProbeOutcome where
  | success (status : Nat) (reason : Str) (finalUrl : Str) (contentType : Str)
      (elapsed : Nat)
  | timeout
  | connectionError (msg : Str)
  | tooManyRedirects
  | requestError (msg : Str)
  | unknownError (msg : Str)
deriving DecidableEq

/-- The validation-result record built by `check_link_status`. -/
structure CheckResult where
  url : Str
  status_code : Option Nat
  status_text : Str
  response_time : Option Nat
  error : Option Str
  redirect_url : Option Str
  content_type : Option Str
  final_url : Str
deriving DecidableEq

/-- `check_link_status`: build the result record from the probe
outcome, mirroring the `try/except` arms of the source. -/
def check_link_status (url : Str) (outcome : ProbeOutcome) : CheckResult :=
  let base : CheckResult := ⟨url, none, [], none, none, none, none, url⟩
  match outcome with
  | .success st reason finalUrl ct elapsed =>
    { base with
      status_code := some st
      status_text := reason
      response_time := some elapsed
      final_url := finalUrl
      content_type := some (ct.takeWhile (fun c => c ≠ ';'))
      redirect_url := if finalUrl ≠ url then some finalUrl else none }
  | .timeout =>
    { base with error := some "Timeout".data, status_text := "Request Timeout".data }
  | .connectionError m =>
    { base with
      error := some ("Connection Error: ".data ++ m)
      status_text := "Connection Failed".data }
  | .tooManyRedirects =>
    { base with
      error := some "Too Many Redirects".data
      status_text := "Redirect Loop".data }
  | .requestError m =>
    { base with
      error := some ("Request Error: ".data ++ m)
      status_text := "Request Failed".data }
  | .unknownError m =>
    { base with
      error := some ("Unknown Error: ".data ++ m)
      status_text := "Unknown Error".data }

/-- The broken test of `check_all_links`:
`status_code is None or status_code >= 400 or error is not None`. -/
def isBrokenResult (r : CheckResult) : Bool :=
  match r.status_code with
  | none => true
  | some c => decide (400 ≤ c) || r.error.isSome

/-- Append one link instance under its URL key, inserting the key at
the end on first sight (Python dict insertion-order semantics). -/
def addInstance (m : List (Str × List Link)) (u : Str) (l : Link) :
    List (Str × List Link) :=
  match m with
  | [] => [(u, [l])]
  | (k, ls) :: t =>
    if k = u then (k, ls ++ [l]) :: t
    else (k, ls) :: addInstance t u l

/-- The `all_links` dictionary of `check_all_links`: every link
instance grouped by URL, in encounter order. -/
def collectAll (found : List (Str × List Link)) : List (Str × List Link) :=
  found.foldl (fun m pl => pl.2.foldl (fun m l => addInstance m l.url l) m) []

/-- A broken-link report entry: the link instance merged with the
validation result (`{**link_instance, **result}`; the result's `url`
overwrites the instance's, and they are equal). -/
structure BrokenEntry where
  url : Str
  source_page : Str
  tag : Str
  attrName : Str
  text : Str
  link_type : LinkType
  status_code : Option Nat
  status_text : Str
  response_time : Option Nat
  error : Option Str
  redirect_url : Option Str
  content_type : Option Str
  final_url : Str
deriving DecidableEq

/-- `{**link_instance, **result}`. -/
def mergeBroken (l : Link) (r : CheckResult) : BrokenEntry :=
  ⟨r.url, l.source_page, l.tag, l.attrName, l.text, l.link_type,
   r.status_code, r.status_text, r.response_time, r.error, r.redirect_url,
   r.content_type, r.final_url⟩

/-- `check_all_links`: probe the first instance of every unique URL,
record one result per URL, and emit one broken entry per instance of a
broken URL.  Returns the `link_status` map and the `broken_links`
list. -/
def check_all_links (found : List (Str × List Link))
    (probe : Str → ProbeOutcome) :
    List (Str × CheckResult) × List BrokenEntry :=
  (collectAll found).foldl (fun acc kv =>
    let result := check_link_status kv.1 (probe kv.1)
    (acc.1 ++ [(kv.1, result)],
     if isBrokenResult result then
       acc.2 ++ kv.2.map (fun l => mergeBroken l result)
     else acc.2)) ([], [])

/-- Every link instance of the page→references mapping, in the order
`check_all_links` encounters them. -/
def allInstances (found : List (Str × List Link)) : List Link :=
  found.flatMap (fun pl => pl.2)

/-- Every reference URL of the mapping (with multiplicity). -/
def allUrls (found : List (Str × List Link)) : List Str :=
  (allInstances found).map (fun l => l.url)

/-- The URLs probed by `check_all_links`, in order: one per key of the
`all_links` dictionary. -/
def probedUrls (found : List (Str × List Link)) : List Str :=
  (collectAll found).map (fun kv => kv.1)

/-! ## The discovery engine (`crawl_website`)

The network is abstracted as two oracles: the robots authority
(`_can_fetch`) and the page fetch (`session.get` + `raise_for_status`
+ `extract_links_from_page`, whose failure is `none`).  The state
carries a log of fetch attempts, each recording the visited set at the
moment of the fetch. -/

/-- The crawl oracles and configuration. -/
structure CrawlEnv where
  domain : Str
  maxPages : Nat
  canFetch : Str → Bool
  fetchPage : Str → Option (List Link)

/-- The mutable crawl state of `crawl_website`. -/
structure CrawlState where
  queue : List Str
  visited : List Str
  pagesVisited : Nat
  foundLinks : List (Str × List Link)
  fetchLog : List (Str × List Str)

/-- The enqueue loop over the extracted links: append every internal,
unvisited, not-yet-queued, same-domain URL. -/
def enqueueNew (domain : Str) (visited : List Str) (links : List Link)
    (queue : List Str) : List Str :=
  links.foldl (fun q l =>
    if l.link_type = .internal ∧ l.url ∉ visited ∧ l.url ∉ q ∧
       isSameDomain domain l.url
    then q ++ [l.url] else q) queue

/-- One iteration of the crawl loop body: dequeue the head, skip it if
visited or disallowed, otherwise fetch it; on success mark it visited,
record its links, and enqueue the new internal pages. -/
def crawlStep (env : CrawlEnv) (st : CrawlState) : CrawlState :=
  match st.queue with
  | [] => st
  | cur :: rest =>
    if cur ∈ st.visited then { st with queue := rest }
    else if ¬ env.canFetch cur then { st with queue := rest }
    else
      match env.fetchPage cur with
      | none =>
        { st with queue := rest, fetchLog := st.fetchLog ++ [(cur, st.visited)] }
      | some links =>
        let visited1 := st.visited ++ [cur]
        { queue := enqueueNew env.domain visited1 links rest
          visited := visited1
          pagesVisited := st.pagesVisited + 1
          foundLinks := st.foundLinks ++ [(cur, links)]
          fetchLog := st.fetchLog ++ [(cur, st.visited)] }

/-- The crawl loop: run while the queue is nonempty and the page
budget is not exhausted; fuel bounds the iteration count. -/
def crawlLoop (env : CrawlEnv) : Nat → CrawlState → CrawlState
  | 0, st => st
  | fuel + 1, st =>
    if st.queue = [] ∨ ¬ st.pagesVisited < env.maxPages then st
    else crawlLoop env fuel (crawlStep env st)

/-- The initial crawl state: the queue holds only the crawler's base
URL (`base_url.rstrip('/')`). -/
def initialCrawlState (baseUrl : Str) : CrawlState :=
  ⟨[pyRstripSlash baseUrl], [], 0, [], []⟩

/-- `crawl_website`, starting from the base URL. -/
def crawl_website (env : CrawlEnv) (baseUrl : Str) (fuel : Nat) : CrawlState :=
  crawlLoop env fuel (initialCrawlState baseUrl)

/-- The separator characters a URL is reassembled with (`:`, `//`,
`?`, `#` by `urlunsplit`, `;` by `urlunparse`, `/` by the path join). -/
def urlSepChars : List Char := [':', '/', '?', '#', ';']

/-! ## Theorems -/

/-- C1: for every probe outcome, the reference is classified broken if
and only if no status code was obtained or the obtained status code is
at least 400; in particular a 404 probe is broken, a 200 probe is not
broken, and a timeout yields a null status code, a non-null error and
broken. -/
theorem broken_classification :
    ∀ (url : Str) (o : ProbeOutcome),
      (isBrokenResult (check_link_status url o) = true ↔
        ((check_link_status url o).status_code = none ∨
          ∃ c, (check_link_status url o).status_code = some c ∧ 400 ≤ c)) ∧
      (∀ reason finalUrl ct elapsed,
        isBrokenResult (check_link_status url (.success 404 reason finalUrl ct elapsed)) = true) ∧
      (∀ reason finalUrl ct elapsed,
        isBrokenResult (check_link_status url (.success 200 reason finalUrl ct elapsed)) = false) ∧
      ((check_link_status url .timeout).status_code = none ∧
        (check_link_status url .timeout).error ≠ none ∧
        isBrokenResult (check_link_status url .timeout) = true) := by
  intro url o
  refine ⟨?_, ?_, ?_, ?_⟩
  · cases o <;> simp [check_link_status, isBrokenResult]
  · intro reason finalUrl ct elapsed
    simp [check_link_status, isBrokenResult]
  · intro reason finalUrl ct elapsed
    simp [check_link_status, isBrokenResult]
  · refine ⟨rfl, ?_, rfl⟩
    simp [check_link_status]

/-! ### Validator dedup lemmas (C2) -/

/-- All instances stored under key `k` of a grouping. -/
def valsOf : List (Str × List Link) → Str → List Link
  | [], _ => []
  | kv :: t, k => (if kv.1 = k then kv.2 else []) ++ valsOf t k

theorem keys_addInstance (m : List (Str × List Link)) (u : Str) (l : Link) :
    (addInstance m u l).map (fun kv => kv.1) =
      if u ∈ m.map (fun kv => kv.1) then m.map (fun kv => kv.1)
      else m.map (fun kv => kv.1) ++ [u] := by
  induction m with
  | nil => simp [addInstance]
  | cons kv t ih =>
    by_cases h : kv.1 = u
    · simp [addInstance, h]
    · simp only [addInstance, if_neg h, List.map_cons, ih, List.mem_cons]
      by_cases hm : u ∈ t.map (fun kv => kv.1)
      · simp [hm, Ne.symm h]
      · simp [hm, Ne.symm h]

theorem valsOf_of_not_mem_keys (m : List (Str × List Link)) (k : Str)
    (h : k ∉ m.map (fun kv => kv.1)) : valsOf m k = [] := by
  induction m with
  | nil => simp [valsOf]
  | cons kv t ih =>
    simp only [List.map_cons, List.mem_cons] at h
    push_neg at h
    have hne : ¬ kv.1 = k := fun e => h.1 e.symm
    simp [valsOf, hne, ih h.2]

theorem valsOf_addInstance (m : List (Str × List Link)) (u : Str) (l : Link) (k : Str)
    (hnd : (m.map (fun kv => kv.1)).Nodup) :
    valsOf (addInstance m u l) k = valsOf m k ++ if k = u then [l] else [] := by
  induction m with
  | nil =>
    by_cases h : k = u
    · subst h; simp [addInstance, valsOf]
    · have h' : ¬ (u = k) := fun e => h e.symm
      simp [addInstance, valsOf, h, h']
  | cons kv t ih =>
    have hnd' : (t.map (fun kv => kv.1)).Nodup := (List.nodup_cons.mp hnd).2
    by_cases h : kv.1 = u
    · have hu : u ∉ t.map (fun kv => kv.1) := h ▸ (List.nodup_cons.mp hnd).1
      by_cases hk : kv.1 = k
      · have hku : k = u := hk.symm.trans h
        subst hku
        have hvt : valsOf t k = [] := valsOf_of_not_mem_keys t k hu
        simp [addInstance, h, valsOf, hk, hvt]
      · have hku : ¬ k = u := fun e => hk (h.trans e.symm)
        have hku' : ¬ u = k := fun e => hku e.symm
        simp [addInstance, h, valsOf, hk, hku, hku']
    · by_cases hk : kv.1 = k
      · have hku : ¬ k = u := fun e => h (hk.trans e)
        simp [addInstance, h, valsOf, hk, hku, ih hnd', List.append_assoc]
      · simp [addInstance, h, valsOf, hk, ih hnd']

theorem keys_nodup_addInstance (m : List (Str × List Link)) (u : Str) (l : Link)
    (h : (m.map (fun kv => kv.1)).Nodup) :
    ((addInstance m u l).map (fun kv => kv.1)).Nodup := by
  rw [keys_addInstance]
  by_cases hm : u ∈ m.map (fun kv => kv.1)
  · simpa [hm] using h
  · rw [if_neg hm]
    refine List.Nodup.append h (List.nodup_singleton u) ?_
    intro a ha hau
    simp only [List.mem_singleton] at hau
    exact hm (hau ▸ ha)

theorem mem_keys_addInstance (m : List (Str × List Link)) (u : Str) (l : Link) (k : Str) :
    k ∈ (addInstance m u l).map (fun kv => kv.1) ↔
      k ∈ m.map (fun kv => kv.1) ∨ k = u := by
  rw [keys_addInstance]
  by_cases hm : u ∈ m.map (fun kv => kv.1)
  · simp only [if_pos hm]
    constructor
    · exact fun h => Or.inl h
    · rintro (h | rfl)
      · exact h
      · exact hm
  · simp [if_neg hm]

theorem collect_links_foldl_keys_nodup (links : List Link) (m : List (Str × List Link))
    (h : (m.map (fun kv => kv.1)).Nodup) :
    ((links.foldl (fun m l => addInstance m l.url l) m).map (fun kv => kv.1)).Nodup := by
  induction links generalizing m with
  | nil => simpa
  | cons l t ih => exact ih _ (keys_nodup_addInstance _ _ _ h)

/-- Folding the inner loop of `collectAll` over a list of links. -/
theorem collect_links_foldl (links : List Link) (m : List (Str × List Link))
    (hnd : (m.map (fun kv => kv.1)).Nodup) :
    ∀ k, valsOf (links.foldl (fun m l => addInstance m l.url l) m) k =
      valsOf m k ++ links.filter (fun l => l.url = k) := by
  induction links generalizing m with
  | nil => simp
  | cons l t ih =>
    intro k
    rw [List.foldl_cons, ih _ (keys_nodup_addInstance _ _ _ hnd),
      valsOf_addInstance _ _ _ _ hnd, List.filter_cons]
    by_cases h : l.url = k
    · subst h
      simp [List.append_assoc]
    · have h' : ¬ k = l.url := fun e => h e.symm
      simp [h, h']

theorem collect_links_foldl_mem_keys (links : List Link) (m : List (Str × List Link)) (k : Str) :
    k ∈ (links.foldl (fun m l => addInstance m l.url l) m).map (fun kv => kv.1) ↔
      k ∈ m.map (fun kv => kv.1) ∨ k ∈ links.map (fun l => l.url) := by
  induction links generalizing m with
  | nil => simp
  | cons l t ih =>
    simp only [List.foldl_cons, ih, mem_keys_addInstance, List.map_cons, List.mem_cons]
    tauto

theorem collectAll_vals (found : List (Str × List Link)) (k : Str) :
    valsOf (collectAll found) k = (allInstances found).filter (fun l => l.url = k) := by
  suffices h : ∀ (m : List (Str × List Link)), (m.map (fun kv => kv.1)).Nodup →
      valsOf (found.foldl (fun m pl => pl.2.foldl (fun m l => addInstance m l.url l) m) m) k =
        valsOf m k ++ (found.flatMap (fun pl => pl.2)).filter (fun l => l.url = k) by
    simpa [collectAll, allInstances, valsOf] using h [] (by simp)
  induction found with
  | nil => intro m _; simp
  | cons pl t ih =>
    intro m hm
    rw [List.foldl_cons, ih _ (collect_links_foldl_keys_nodup _ _ hm),
      collect_links_foldl _ _ hm, List.flatMap_cons, List.filter_append,
      List.append_assoc]

theorem collectAll_keys_nodup (found : List (Str × List Link)) :
    (probedUrls found).Nodup := by
  suffices h : ∀ (m : List (Str × List Link)), (m.map (fun kv => kv.1)).Nodup →
      ((found.foldl (fun m pl => pl.2.foldl (fun m l => addInstance m l.url l) m) m).map
        (fun kv => kv.1)).Nodup by
    simpa [probedUrls, collectAll] using h [] (by simp)
  induction found with
  | nil => exact fun m h => h
  | cons pl t ih => exact fun m h => ih _ (collect_links_foldl_keys_nodup _ _ h)

theorem collectAll_mem_keys (found : List (Str × List Link)) (k : Str) :
    k ∈ probedUrls found ↔ k ∈ allUrls found := by
  suffices h : ∀ (m : List (Str × List Link)),
      k ∈ (found.foldl (fun m pl => pl.2.foldl (fun m l => addInstance m l.url l) m) m).map
        (fun kv => kv.1) ↔
      k ∈ m.map (fun kv => kv.1) ∨ k ∈ (found.flatMap (fun pl => pl.2)).map (fun l => l.url) by
    simpa [probedUrls, collectAll, allUrls, allInstances] using h []
  induction found with
  | nil => simp
  | cons pl t ih =>
    intro m
    simp only [List.foldl_cons, ih, collect_links_foldl_mem_keys, List.flatMap_cons,
      List.map_append, List.mem_append]
    tauto

/-- Unfolding of the result-accumulating fold of `check_all_links`. -/
theorem check_all_links_eq (found : List (Str × List Link)) (probe : Str → ProbeOutcome) :
    check_all_links found probe =
      ((collectAll found).map (fun kv => (kv.1, check_link_status kv.1 (probe kv.1))),
       (collectAll found).flatMap (fun kv =>
         if isBrokenResult (check_link_status kv.1 (probe kv.1)) then
           kv.2.map (fun l => mergeBroken l (check_link_status kv.1 (probe kv.1)))
         else [])) := by
  suffices h : ∀ (m : List (Str × List Link)) (acc : List (Str × CheckResult) × List BrokenEntry),
      m.foldl (fun acc kv =>
        let result := check_link_status kv.1 (probe kv.1)
        (acc.1 ++ [(kv.1, result)],
         if isBrokenResult result then
           acc.2 ++ kv.2.map (fun l => mergeBroken l result)
         else acc.2)) acc =
      (acc.1 ++ m.map (fun kv => (kv.1, check_link_status kv.1 (probe kv.1))),
       acc.2 ++ m.flatMap (fun kv =>
         if isBrokenResult (check_link_status kv.1 (probe kv.1)) then
           kv.2.map (fun l => mergeBroken l (check_link_status kv.1 (probe kv.1)))
         else [])) by
    simpa [check_all_links] using h (collectAll found) ([], [])
  intro m
  induction m with
  | nil => simp
  | cons kv t ih =>
    intro acc
    simp only [List.foldl_cons, ih, List.map_cons, List.flatMap_cons, List.append_assoc]
    by_cases hb : isBrokenResult (check_link_status kv.1 (probe kv.1)) <;>
      simp [hb, List.append_assoc]

theorem check_link_status_url (url : Str) (o : ProbeOutcome) :
    (check_link_status url o).url = url := by
  cases o <;> rfl

theorem broken_filter_length (m : List (Str × List Link)) (probe : Str → ProbeOutcome)
    (u : Str) (hnd : (m.map (fun kv => kv.1)).Nodup) :
    ((m.flatMap (fun kv =>
        if isBrokenResult (check_link_status kv.1 (probe kv.1)) then
          kv.2.map (fun l => mergeBroken l (check_link_status kv.1 (probe kv.1)))
        else [])).filter (fun e => e.url = u)).length =
      if isBrokenResult (check_link_status u (probe u)) then (valsOf m u).length else 0 := by
  induction m with
  | nil => simp [valsOf]
  | cons kv t ih =>
    have hnd' : (t.map (fun kv => kv.1)).Nodup := (List.nodup_cons.mp hnd).2
    have hurl : ∀ l : Link, (mergeBroken l (check_link_status kv.1 (probe kv.1))).url = kv.1 := by
      intro l
      simp [mergeBroken, check_link_status_url]
    rw [List.flatMap_cons, List.filter_append, List.length_append, ih hnd']
    by_cases hk : kv.1 = u
    · subst hk
      have hu : kv.1 ∉ t.map (fun kv => kv.1) := (List.nodup_cons.mp hnd).1
      have hvt : valsOf t kv.1 = [] := valsOf_of_not_mem_keys t kv.1 hu
      have hv : valsOf (kv :: t) kv.1 = kv.2 := by simp [valsOf, hvt]
      rw [hv, hvt]
      by_cases hb : isBrokenResult (check_link_status kv.1 (probe kv.1))
      · have : (kv.2.map (fun l => mergeBroken l (check_link_status kv.1 (probe kv.1)))).filter
            (fun e => e.url = kv.1) =
            kv.2.map (fun l => mergeBroken l (check_link_status kv.1 (probe kv.1))) := by
          apply List.filter_eq_self.mpr
          intro e he
          obtain ⟨l, _, rfl⟩ := List.mem_map.mp he
          simp [hurl]
        simp [hb, this]
      · simp [hb]
    · have hv : valsOf (kv :: t) u = valsOf t u := by simp [valsOf, hk]
      rw [hv]
      by_cases hb : isBrokenResult (check_link_status kv.1 (probe kv.1))
      · have : (kv.2.map (fun l => mergeBroken l (check_link_status kv.1 (probe kv.1)))).filter
            (fun e => e.url = u) = [] := by
          apply List.filter_eq_nil_iff.mpr
          intro e he
          obtain ⟨l, _, rfl⟩ := List.mem_map.mp he
          simp [hurl, hk]
        simp [hb, this]
      · simp [hb]

theorem mem_valsOf_broken (m : List (Str × List Link)) (probe : Str → ProbeOutcome)
    (l : Link) (hl : l ∈ valsOf m l.url)
    (hb : isBrokenResult (check_link_status l.url (probe l.url))) :
    mergeBroken l (check_link_status l.url (probe l.url)) ∈
      m.flatMap (fun kv =>
        if isBrokenResult (check_link_status kv.1 (probe kv.1)) then
          kv.2.map (fun l => mergeBroken l (check_link_status kv.1 (probe kv.1)))
        else []) := by
  induction m with
  | nil => simp [valsOf] at hl
  | cons kv t ih =>
    rw [List.flatMap_cons, List.mem_append]
    by_cases hk : kv.1 = l.url
    · simp only [valsOf, if_pos hk, List.mem_append] at hl
      rcases hl with hl | hl
      · left
        rw [hk, if_pos hb]
        exact List.mem_map.mpr ⟨l, hl, rfl⟩
      · right; exact ih hl
    · simp only [valsOf, if_neg hk, List.nil_append] at hl
      right; exact ih hl

/-- C2: the validator probes exactly one URL per unique reference URL
and stores exactly one validation result per unique URL, while a
broken URL contributes one broken-link entry per reference instance,
so every source page containing it is attributed. -/
theorem validator_unique_probe (found : List (Str × List Link)) (probe : Str → ProbeOutcome) :
    (probedUrls found).Nodup ∧
    (∀ u, u ∈ probedUrls found ↔ u ∈ allUrls found) ∧
    ((check_all_links found probe).1.map (fun kv => kv.1) = probedUrls found) ∧
    (∀ u, ((check_all_links found probe).2.filter (fun e => e.url = u)).length =
      if isBrokenResult (check_link_status u (probe u)) then
        ((allInstances found).filter (fun l => l.url = u)).length
      else 0) ∧
    (∀ l ∈ allInstances found,
      isBrokenResult (check_link_status l.url (probe l.url)) →
        mergeBroken l (check_link_status l.url (probe l.url)) ∈
          (check_all_links found probe).2) := by
  refine ⟨collectAll_keys_nodup found, collectAll_mem_keys found, ?_, ?_, ?_⟩
  · rw [check_all_links_eq]
    simp [probedUrls]
  · intro u
    rw [check_all_links_eq]
    have hnd : ((collectAll found).map (fun kv => kv.1)).Nodup := collectAll_keys_nodup found
    rw [broken_filter_length _ probe u hnd, collectAll_vals]
  · intro l hl hb
    rw [check_all_links_eq]
    have hv : l ∈ valsOf (collectAll found) l.url := by
      rw [collectAll_vals]
      exact List.mem_filter.mpr ⟨hl, by simp⟩
    exact mem_valsOf_broken _ probe l hv hb

/-- Witness for C2: a concrete mapping with the same reference URL on
two pages, a probe that times out, and the attribution of the broken
entry to a concrete instance. -/
theorem validator_unique_probe_witness :
    mergeBroken
        ⟨"https://a.com/x".data, "https://x.com/p1".data, "a".data, "href".data, [], .external⟩
        (check_link_status "https://a.com/x".data
          ((fun _ => ProbeOutcome.timeout) "https://a.com/x".data)) ∈
      (check_all_links
        [("https://x.com/p1".data,
          [⟨"https://a.com/x".data, "https://x.com/p1".data, "a".data, "href".data, [], .external⟩]),
         ("https://x.com/p2".data,
          [⟨"https://a.com/x".data, "https://x.com/p2".data, "a".data, "href".data, [], .external⟩])]
        (fun _ => ProbeOutcome.timeout)).2 := by
  refine (validator_unique_probe _ _).2.2.2.2
    ⟨"https://a.com/x".data, "https://x.com/p1".data, "a".data, "href".data, [], .external⟩
    (by decide) (by decide)

/-! ### Discovery-engine lemmas (C3) -/

theorem enqueueNew_extends (domain : Str) (visited : List Str) (links : List Link)
    (queue : List Str) :
    ∃ t, enqueueNew domain visited links queue = queue ++ t := by
  induction links generalizing queue with
  | nil => exact ⟨[], by simp [enqueueNew]⟩
  | cons l ls ih =>
    simp only [enqueueNew, List.foldl_cons]
    by_cases h : l.link_type = LinkType.internal ∧ l.url ∉ visited ∧ l.url ∉ queue ∧
        isSameDomain domain l.url
    · obtain ⟨t, ht⟩ := ih (queue ++ [l.url])
      exact ⟨[l.url] ++ t, by simpa [enqueueNew, if_pos h, List.append_assoc] using ht⟩
    · obtain ⟨t, ht⟩ := ih queue
      exact ⟨t, by simpa [enqueueNew, if_neg h] using ht⟩

/-- The crawl-state invariant: the page counter counts the visited
set, the visited set has no duplicates, and no fetch was ever issued
for a URL that was already visited at that moment. -/
def CrawlInv (st : CrawlState) : Prop :=
  st.pagesVisited = st.visited.length ∧ st.visited.Nodup ∧
    ∀ e ∈ st.fetchLog, e.1 ∉ e.2

theorem crawlStep_eq_nil (env : CrawlEnv) (st : CrawlState) (hq : st.queue = []) :
    crawlStep env st = st := by
  simp [crawlStep, hq]

theorem crawlStep_eq_visited (env : CrawlEnv) (st : CrawlState) (cur : Str)
    (rest : List Str) (hq : st.queue = cur :: rest) (hv : cur ∈ st.visited) :
    crawlStep env st = { st with queue := rest } := by
  simp [crawlStep, hq, hv]

theorem crawlStep_eq_robots (env : CrawlEnv) (st : CrawlState) (cur : Str)
    (rest : List Str) (hq : st.queue = cur :: rest) (hv : cur ∉ st.visited)
    (hr : ¬ env.canFetch cur) :
    crawlStep env st = { st with queue := rest } := by
  simp [crawlStep, hq, hv, hr]

theorem crawlStep_eq_fail (env : CrawlEnv) (st : CrawlState) (cur : Str)
    (rest : List Str) (hq : st.queue = cur :: rest) (hv : cur ∉ st.visited)
    (hr : env.canFetch cur) (hf : env.fetchPage cur = none) :
    crawlStep env st =
      { st with queue := rest, fetchLog := st.fetchLog ++ [(cur, st.visited)] } := by
  simp [crawlStep, hq, hv, hr, hf]

theorem crawlStep_eq_success (env : CrawlEnv) (st : CrawlState) (cur : Str)
    (rest : List Str) (links : List Link) (hq : st.queue = cur :: rest)
    (hv : cur ∉ st.visited) (hr : env.canFetch cur)
    (hf : env.fetchPage cur = some links) :
    crawlStep env st =
      ⟨enqueueNew env.domain (st.visited ++ [cur]) links rest,
       st.visited ++ [cur], st.pagesVisited + 1,
       st.foundLinks ++ [(cur, links)], st.fetchLog ++ [(cur, st.visited)]⟩ := by
  simp [crawlStep, hq, hv, hr, hf]

theorem crawlStep_inv (env : CrawlEnv) (st : CrawlState) (h : CrawlInv st) :
    CrawlInv (crawlStep env st) := by
  obtain ⟨hc, hn, hl⟩ := h
  match hq : st.queue with
  | [] => rw [crawlStep_eq_nil env st hq]; exact ⟨hc, hn, hl⟩
  | cur :: rest =>
    by_cases hv : cur ∈ st.visited
    · rw [crawlStep_eq_visited env st cur rest hq hv]
      exact ⟨hc, hn, hl⟩
    · by_cases hr : env.canFetch cur
      · cases hf : env.fetchPage cur with
        | none =>
          rw [crawlStep_eq_fail env st cur rest hq hv hr hf]
          refine ⟨hc, hn, ?_⟩
          intro e he
          rcases List.mem_append.mp he with h1 | h1
          · exact hl e h1
          · simp only [List.mem_singleton] at h1
            subst h1
            exact hv
        | some links =>
          rw [crawlStep_eq_success env st cur rest links hq hv hr hf]
          refine ⟨?_, ?_, ?_⟩
          · simpa using hc
          · exact List.Nodup.append hn (List.nodup_singleton cur)
              (by intro a ha hau; simp only [List.mem_singleton] at hau; exact hv (hau ▸ ha))
          · intro e he
            rcases List.mem_append.mp he with h1 | h1
            · exact hl e h1
            · simp only [List.mem_singleton] at h1
              subst h1
              exact hv
      · rw [crawlStep_eq_robots env st cur rest hq hv hr]
        exact ⟨hc, hn, hl⟩

theorem crawlStep_pagesVisited_le (env : CrawlEnv) (st : CrawlState) :
    (crawlStep env st).pagesVisited ≤ st.pagesVisited + 1 := by
  match hq : st.queue with
  | [] => rw [crawlStep_eq_nil env st hq]; exact Nat.le_succ _
  | cur :: rest =>
    by_cases hv : cur ∈ st.visited
    · rw [crawlStep_eq_visited env st cur rest hq hv]; exact Nat.le_succ _
    · by_cases hr : env.canFetch cur
      · cases hf : env.fetchPage cur with
        | none =>
          rw [crawlStep_eq_fail env st cur rest hq hv hr hf]; exact Nat.le_succ _
        | some links =>
          rw [crawlStep_eq_success env st cur rest links hq hv hr hf]
      · rw [crawlStep_eq_robots env st cur rest hq hv hr]; exact Nat.le_succ _

theorem crawlLoop_inv (env : CrawlEnv) (fuel : Nat) (st : CrawlState) (h : CrawlInv st) :
    CrawlInv (crawlLoop env fuel st) := by
  induction fuel generalizing st with
  | zero => exact h
  | succ n ih =>
    rw [crawlLoop]
    split
    · exact h
    · exact ih _ (crawlStep_inv env st h)

theorem crawlLoop_budget (env : CrawlEnv) (fuel : Nat) (st : CrawlState)
    (h : st.pagesVisited ≤ env.maxPages) :
    (crawlLoop env fuel st).pagesVisited ≤ env.maxPages := by
  induction fuel generalizing st with
  | zero => exact h
  | succ n ih =>
    rw [crawlLoop]
    split
    · exact h
    · next hg =>
      have hlt : st.pagesVisited < env.maxPages := by
        rcases not_or.mp hg with ⟨_, h2⟩
        exact not_not.mp h2
      exact ih _ (le_trans (crawlStep_pagesVisited_le env st) hlt)

/-- C3: the discovery engine visits at most `maxPages` pages, a URL
already in the visited set is never fetched again, and the work queue
is processed in strict FIFO order (head dequeued, new pages appended)
starting from the base URL. -/
theorem crawler_budget_fifo (env : CrawlEnv) (baseUrl : Str) (fuel : Nat)
    (st : CrawlState) (cur : Str) (rest : List Str) (hq : st.queue = cur :: rest) :
    ((crawl_website env baseUrl fuel).visited.length ≤ env.maxPages ∧
     (crawl_website env baseUrl fuel).pagesVisited =
       (crawl_website env baseUrl fuel).visited.length ∧
     (crawl_website env baseUrl fuel).visited.Nodup ∧
     (∀ e ∈ (crawl_website env baseUrl fuel).fetchLog, e.1 ∉ e.2)) ∧
    (∃ tail, (crawlStep env st).queue = rest ++ tail) ∧
    ((crawlStep env st).fetchLog = st.fetchLog ∨
      (crawlStep env st).fetchLog = st.fetchLog ++ [(cur, st.visited)]) ∧
    crawl_website env baseUrl 0 = ⟨[pyRstripSlash baseUrl], [], 0, [], []⟩ := by
  have hinv0 : CrawlInv (initialCrawlState baseUrl) := by
    refine ⟨rfl, List.nodup_nil, ?_⟩
    intro e he
    simp [initialCrawlState] at he
  have hinv : CrawlInv (crawl_website env baseUrl fuel) :=
    crawlLoop_inv env fuel _ hinv0
  obtain ⟨hc, hn, hl⟩ := hinv
  have hbudget : (crawl_website env baseUrl fuel).pagesVisited ≤ env.maxPages :=
    crawlLoop_budget env fuel _ (Nat.zero_le _)
  refine ⟨⟨hc ▸ hbudget, hc, hn, hl⟩, ?_, ?_, rfl⟩
  · by_cases hv : cur ∈ st.visited
    · rw [crawlStep_eq_visited env st cur rest hq hv]
      exact ⟨[], by simp⟩
    · by_cases hr : env.canFetch cur
      · cases hf : env.fetchPage cur with
        | none =>
          rw [crawlStep_eq_fail env st cur rest hq hv hr hf]
          exact ⟨[], by simp⟩
        | some links =>
          rw [crawlStep_eq_success env st cur rest links hq hv hr hf]
          exact enqueueNew_extends env.domain (st.visited ++ [cur]) links rest
      · rw [crawlStep_eq_robots env st cur rest hq hv hr]
        exact ⟨[], by simp⟩
  · by_cases hv : cur ∈ st.visited
    · rw [crawlStep_eq_visited env st cur rest hq hv]
      left; rfl
    · by_cases hr : env.canFetch cur
      · cases hf : env.fetchPage cur with
        | none =>
          rw [crawlStep_eq_fail env st cur rest hq hv hr hf]
          right; rfl
        | some links =>
          rw [crawlStep_eq_success env st cur rest links hq hv hr hf]
          right; rfl
      · rw [crawlStep_eq_robots env st cur rest hq hv hr]
        left; rfl

/-- Witness for C3: a concrete crawl with budget 2 over a two-page
site, and a concrete step on a singleton queue. -/
theorem crawler_budget_fifo_witness :
    ((crawl_website
        ⟨"x.com".data, 2, fun _ => true, fun _ => some []⟩
        "https://x.com/".data 5).visited.length ≤ 2 ∧
     (crawl_website
        ⟨"x.com".data, 2, fun _ => true, fun _ => some []⟩
        "https://x.com/".data 5).pagesVisited =
       (crawl_website
        ⟨"x.com".data, 2, fun _ => true, fun _ => some []⟩
        "https://x.com/".data 5).visited.length ∧
     (crawl_website
        ⟨"x.com".data, 2, fun _ => true, fun _ => some []⟩
        "https://x.com/".data 5).visited.Nodup ∧
     (∀ e ∈ (crawl_website
        ⟨"x.com".data, 2, fun _ => true, fun _ => some []⟩
        "https://x.com/".data 5).fetchLog, e.1 ∉ e.2)) ∧
    (∃ tail, (crawlStep ⟨"x.com".data, 2, fun _ => true, fun _ => some []⟩
        ⟨["https://x.com/a".data], [], 0, [], []⟩).queue = [] ++ tail) ∧
    ((crawlStep ⟨"x.com".data, 2, fun _ => true, fun _ => some []⟩
        ⟨["https://x.com/a".data], [], 0, [], []⟩).fetchLog = [] ∨
      (crawlStep ⟨"x.com".data, 2, fun _ => true, fun _ => some []⟩
        ⟨["https://x.com/a".data], [], 0, [], []⟩).fetchLog =
        [] ++ [("https://x.com/a".data, [])]) ∧
    crawl_website ⟨"x.com".data, 2, fun _ => true, fun _ => some []⟩
        "https://x.com/".data 0 =
      ⟨[pyRstripSlash "https://x.com/".data], [], 0, [], []⟩ :=
  crawler_budget_fifo ⟨"x.com".data, 2, fun _ => true, fun _ => some []⟩
    "https://x.com/".data 5 ⟨["https://x.com/a".data], [], 0, [], []⟩
    "https://x.com/a".data [] rfl

/-! ### Extractor lemmas (C8, C10) -/

theorem extractTagLinks_aux (domain pageUrl : Str) (elements : List Element)
    (acc : List Link) (hacc : ∀ l ∈ acc, l.url ≠ pageUrl) :
    ∀ l ∈ elements.foldl (fun links el =>
      let raw := pyStrip el.value
      if raw ≠ [] then
        let n := normalizeUrl raw pageUrl
        if n ≠ [] ∧ n ≠ pageUrl then
          links ++ [⟨n, pageUrl, el.tag, el.attrName, el.textContent.take 100,
                     linkTypeFor domain n⟩]
        else links
      else links) acc, l.url ≠ pageUrl := by
  induction elements generalizing acc with
  | nil => exact hacc
  | cons el t ih =>
    rw [List.foldl_cons]
    apply ih
    intro l hl
    by_cases h1 : pyStrip el.value ≠ []
    · by_cases h2 : normalizeUrl (pyStrip el.value) pageUrl ≠ [] ∧
          normalizeUrl (pyStrip el.value) pageUrl ≠ pageUrl
      · simp only [if_pos h1, if_pos h2, List.mem_append] at hl
        rcases hl with hl | hl
        · exact hacc l hl
        · simp only [List.mem_singleton] at hl
          subst hl
          exact h2.2
      · simp only [if_pos h1, if_neg h2] at hl
        exact hacc l hl
    · simp only [if_neg h1] at hl
      exact hacc l hl

theorem extractTextLinks_aux (domain pageUrl : Str) (urls : List Str)
    (acc : List Link) (hacc : ∀ l ∈ acc, l.url ≠ pageUrl) :
    ∀ l ∈ urls.foldl (fun links tu =>
      let n := normalizeUrl tu pageUrl
      if n ≠ [] ∧ n ≠ pageUrl ∧ n ∉ links.map (fun l => l.url) then
        links ++ [⟨n, pageUrl, "text".data, "content".data, tu.take 100,
                   linkTypeFor domain n⟩]
      else links) acc, l.url ≠ pageUrl := by
  induction urls generalizing acc with
  | nil => exact hacc
  | cons tu t ih =>
    rw [List.foldl_cons]
    apply ih
    intro l hl
    by_cases h2 : normalizeUrl tu pageUrl ≠ [] ∧ normalizeUrl tu pageUrl ≠ pageUrl ∧
        normalizeUrl tu pageUrl ∉ acc.map (fun l => l.url)
    · simp only [if_pos h2, List.mem_append] at hl
      rcases hl with hl | hl
      · exact hacc l hl
      · simp only [List.mem_singleton] at hl
        subst hl
        exact h2.2.1
    · simp only [if_neg h2] at hl
      exact hacc l hl

/-- C8: extraction from a page never yields a reference whose
normalized URL equals the page's own URL, whether the reference came
from a tag attribute or from free text. -/
theorem no_self_links (domain pageUrl : Str) (elements : List Element) (pageText : Str) :
    ∀ l ∈ extract_links_from_page domain pageUrl elements pageText, l.url ≠ pageUrl := by
  unfold extract_links_from_page
  apply extractTextLinks_aux
  unfold extractTagLinks
  apply extractTagLinks_aux
  intro l hl
  simp at hl

/-- Witness for C8: a concrete page with one anchor element and one
free-text URL; the produced reference differs from the page URL. -/
theorem no_self_links_witness :
    (⟨"https://example.com/x".data, "https://example.com/test".data, "a".data,
      "href".data, "go".data, LinkType.internal⟩ : Link).url ≠
      "https://example.com/test".data :=
  no_self_links "example.com".data "https://example.com/test".data
    [⟨"a".data, "href".data, "/x".data, "go".data⟩] []
    ⟨"https://example.com/x".data, "https://example.com/test".data, "a".data,
      "href".data, "go".data, LinkType.internal⟩
    (by decide)

theorem pyRstripSlash_concat (s : Str) (c : Char) (h : ¬ c = '/') :
    pyRstripSlash (s ++ [c]) = s ++ [c] := by
  simp [pyRstripSlash, List.dropWhile_cons, h]

/-- C10: a fragment-only reference on its own page is not discarded as
a self-link: `"#sec"` on page `P` normalizes to `P ++ "#sec"`, which
differs from `P`, so extraction keeps it, and the validator schedules
it as a unique URL. -/
theorem fragment_only_not_self :
    ∀ (domain P txt : Str),
      normalizeUrl "#sec".data P = P ++ "#sec".data ∧
      normalizeUrl "#sec".data P ≠ P ∧
      extract_links_from_page domain P [⟨"a".data, "href".data, "#sec".data, txt⟩] [] =
        [⟨P ++ "#sec".data, P, "a".data, "href".data, txt.take 100,
          linkTypeFor domain (P ++ "#sec".data)⟩] ∧
      probedUrls [(P,
        extract_links_from_page domain P [⟨"a".data, "href".data, "#sec".data, txt⟩] [])] =
        [P ++ "#sec".data] := by
  intro domain P txt
  have hjoin : urljoinE P [] = some P := by
    by_cases hP : P = []
    · subst hP; rfl
    · simp [urljoinE, hP]
  have hsplit : pySplit1 '#' "#sec".data = ([], some "sec".data) := rfl
  have hnorm : normalizeUrl "#sec".data P = P ++ "#sec".data := by
    unfold normalizeUrl
    rw [hsplit]
    simp only [hjoin, Option.getD_some]
    have h1 : P ++ '#' :: "sec".data = (P ++ "#se".data) ++ ['c'] := by
      simp [List.append_assoc]
    rw [if_pos (by simp : ("sec".data ≠ []))]
    rw [h1, pyRstripSlash_concat _ 'c' (by decide)]
  have hne : normalizeUrl "#sec".data P ≠ P := by
    rw [hnorm]
    intro h
    have := congrArg List.length h
    simp at this
  refine ⟨hnorm, hne, ?_, ?_⟩
  · unfold extract_links_from_page
    have hscan : scanTextUrls ([] : Str) = [] := rfl
    rw [hscan]
    unfold extractTagLinks
    simp only [List.foldl_cons, List.foldl_nil]
    have hstrip : pyStrip "#sec".data = "#sec".data := rfl
    rw [hstrip]
    rw [if_pos (by simp : ("#sec".data ≠ []))]
    rw [if_pos ⟨by rw [hnorm]; simp, hne⟩]
    simp [hnorm]
  · unfold extract_links_from_page
    have hscan : scanTextUrls ([] : Str) = [] := rfl
    rw [hscan]
    unfold extractTagLinks
    simp only [List.foldl_cons, List.foldl_nil]
    have hstrip : pyStrip "#sec".data = "#sec".data := rfl
    rw [hstrip]
    rw [if_pos (by simp : ("#sec".data ≠ []))]
    rw [if_pos ⟨by rw [hnorm]; simp, hne⟩]
    simp [probedUrls, collectAll, addInstance, hnorm]

/-! ### Free-text URL pattern lemmas (C9) -/

theorem tryZ_spec (cs : Str) (n : Nat) (h : tryZ cs = some n) :
    n = 1 ∧ ∃ c, cs.take 1 = [c] ∧ zClass c = true := by
  match cs with
  | [] => simp [tryZ] at h
  | c :: t =>
    by_cases hz : zClass c
    · simp only [tryZ, if_pos hz, Option.some.injEq] at h
      exact ⟨h.symm, c, by simp, hz⟩
    · simp [tryZ, hz] at h

theorem take_getLast_shift (cs : Str) (g m : Nat) (c : Char)
    (h : ((cs.drop g).take m).getLast? = some c) :
    (cs.take (g + m)).getLast? = some c := by
  rw [List.take_add]
  rw [List.getLast?_append_of_ne_nil]
  · exact h
  · intro he
    rw [he] at h
    simp at h

theorem groupsThenZ_last (fuel : Nat) :
    ∀ (cs : Str) (n : Nat), groupsThenZ fuel cs = some n →
      1 ≤ n ∧ ∃ c, (cs.take n).getLast? = some c ∧ zClass c = true := by
  induction fuel with
  | zero => intro cs n h; simp [groupsThenZ] at h
  | succ f ih =>
    intro cs n h
    rw [groupsThenZ] at h
    cases htg : tryGroup cs with
    | none =>
      simp only [htg] at h
      obtain ⟨hn, c, hc, hz⟩ := tryZ_spec cs n h
      subst hn
      refine ⟨le_refl 1, c, ?_, hz⟩
      rw [hc]
      rfl
    | some g =>
      simp only [htg] at h
      cases hrec : groupsThenZ f (cs.drop g) with
      | none =>
        rw [hrec] at h
        obtain ⟨hn, c, hc, hz⟩ := tryZ_spec cs n h
        subst hn
        refine ⟨le_refl 1, c, ?_, hz⟩
        rw [hc]
        rfl
      | some m =>
        rw [hrec] at h
        obtain ⟨hm, c, hc, hz⟩ := ih (cs.drop g) m hrec
        have hn : n = g + m := by
          simpa using h.symm
        subst hn
        exact ⟨le_trans hm (Nat.le_add_left m g), c, take_getLast_shift cs g m c hc, hz⟩

theorem tryXThen_last (cs : Str) (k : Nat) (n : Nat) (h : tryXThen cs k = some n) :
    ∃ c, (cs.take n).getLast? = some c ∧ zClass c = true := by
  induction k with
  | zero => simp [tryXThen] at h
  | succ j ih =>
    rw [tryXThen] at h
    cases hg : groupsThenZ ((cs.drop (j + 1)).length + 1) (cs.drop (j + 1)) with
    | none =>
      rw [hg] at h
      exact ih h
    | some m =>
      rw [hg] at h
      obtain ⟨_, c, hc, hz⟩ := groupsThenZ_last _ _ _ hg
      have hn : n = j + 1 + m := by simpa using h.symm
      subst hn
      exact ⟨c, take_getLast_shift cs (j + 1) m c hc, hz⟩

theorem tryMatchAt_last (cs : Str) (n : Nat) (h : tryMatchAt cs = some n) :
    ∃ c, (cs.take n).getLast? = some c ∧ zClass c = true := by
  unfold tryMatchAt at h
  cases hs : trySchemeLead cs with
  | none => simp only [hs] at h; exact absurd h (by simp)
  | some p =>
    simp only [hs] at h
    cases hb : tryBody (cs.drop p) with
    | none => rw [hb] at h; exact absurd h (by simp)
    | some b =>
      rw [hb] at h
      obtain ⟨c, hc, hz⟩ := tryXThen_last (cs.drop p) _ b hb
      have hn : n = p + b := by simpa using h.symm
      subst hn
      exact ⟨c, take_getLast_shift cs p b c hc, hz⟩

theorem scanAux_last (fuel : Nat) :
    ∀ (cs : Str) (m : Str), m ∈ scanAux fuel cs →
      ∃ c, m.getLast? = some c ∧ zClass c = true := by
  induction fuel with
  | zero => intro cs m h; simp [scanAux] at h
  | succ f ih =>
    intro cs m h
    match cs with
    | [] => simp [scanAux] at h
    | x :: rest =>
      rw [scanAux] at h
      cases hm : tryMatchAt (x :: rest) with
      | none =>
        rw [hm] at h
        exact ih rest m h
      | some n =>
        rw [hm] at h
        rcases List.mem_cons.mp h with h1 | h1
        · subst h1
          exact tryMatchAt_last (x :: rest) n hm
        · exact ih _ m h1

/-- C9: a URL matched in free text never ends in sentence punctuation
or a bracket/quote delimiter; on the concrete claim sentence the
extracted reference is exactly `https://a.com/x`, with no trailing
period, also after extraction. -/
theorem text_url_boundary :
    (∀ (text m : Str), m ∈ scanTextUrls text →
      ∃ c, m.getLast? = some c ∧ ¬ pyIsSpace c ∧ c ∉ zExcludedChars) ∧
    scanTextUrls "Check out https://a.com/x. More text.".data =
      ["https://a.com/x".data] ∧
    extract_links_from_page "example.com".data "https://example.com/test".data []
        "Check out https://a.com/x. More text.".data =
      [⟨"https://a.com/x".data, "https://example.com/test".data, "text".data,
        "content".data, "https://a.com/x".data, .external⟩] := by
  refine ⟨?_, ?_, ?_⟩
  · intro text m h
    obtain ⟨c, hc, hz⟩ := scanAux_last _ text m h
    have hz' := hz
    simp only [zClass, Bool.and_eq_true, decide_eq_true_eq] at hz'
    exact ⟨c, hc, by simpa using hz'.1, by simpa using hz'.2⟩
  · decide
  · decide

/-- Witness for C9: the boundary property applied to the concrete
match of the claim sentence. -/
theorem text_url_boundary_witness :
    ∃ c, ("https://a.com/x".data).getLast? = some c ∧ ¬ pyIsSpace c ∧
      c ∉ zExcludedChars :=
  text_url_boundary.1 "Check out https://a.com/x. More text.".data
    "https://a.com/x".data (by decide)

/-! ### Trailing-slash stripping (C6) -/

theorem dropWhile_head_not (p : Char → Bool) (l : Str) :
    ∀ c, (l.dropWhile p).head? = some c → p c = false := by
  induction l with
  | nil => intro c h; simp at h
  | cons x t ih =>
    intro c h
    by_cases hx : p x
    · rw [List.dropWhile_cons, if_pos hx] at h
      exact ih c h
    · rw [List.dropWhile_cons, if_neg hx] at h
      simp only [List.head?_cons, Option.some.injEq] at h
      subst h
      exact Bool.of_not_eq_true hx

theorem pyRstripSlash_getLast (s : Str) : (pyRstripSlash s).getLast? ≠ some '/' := by
  unfold pyRstripSlash
  intro h
  rw [List.getLast?_reverse] at h
  have := dropWhile_head_not (fun c => c = '/') s.reverse '/' h
  simp at this

/-- C6 counterexample: an input resolving to `https://x.com/a//` is
normalized to `https://x.com/a` — every trailing slash is removed, not
a single one. -/
theorem single_slash_counterexample :
    normalizeUrl "https://x.com/a//".data "https://x.com".data = "https://x.com/a".data ∧
    normalizeUrl "https://x.com/a//".data "https://x.com".data ≠ "https://x.com/a/".data := by
  decide

/-- C6 (amended): whenever URL resolution succeeds, normalization
strips every trailing slash of the result, so the normalized URL never
ends in a slash; a single trailing slash and a double trailing slash
both collapse to the slash-free form. -/
theorem normalize_strips_trailing_slashes :
    (∀ (u b : Str), (urljoinE b (pySplit1 '#' u).1).isSome →
      (normalizeUrl u b).getLast? ≠ some '/') ∧
    normalizeUrl "https://x.com/a/".data "https://x.com".data = "https://x.com/a".data ∧
    normalizeUrl "https://x.com/a//".data "https://x.com".data = "https://x.com/a".data := by
  refine ⟨?_, by decide, by decide⟩
  intro u b hs
  obtain ⟨j, hj⟩ := Option.isSome_iff_exists.mp hs
  simp only [normalizeUrl, hj]
  exact pyRstripSlash_getLast _

/-- Witness for the amended C6 on a concrete relative reference. -/
theorem normalize_strips_trailing_slashes_witness :
    (normalizeUrl "a/".data "https://x.com".data).getLast? ≠ some '/' :=
  normalize_strips_trailing_slashes.1 "a/".data "https://x.com".data (by decide)

/-! ### Soft failure of normalization (C7) -/

theorem pySplit1_of_not_mem (c : Char) (s : Str) (h : c ∉ s) : pySplit1 c s = (s, none) := by
  induction s with
  | nil => rfl
  | cons x t ih =>
    simp only [List.mem_cons] at h
    push_neg at h
    have hx : ¬ x = c := fun e => h.1 e.symm
    simp [pySplit1, hx, ih h.2]

/-- C7 counterexample: on the raising input `//[/#frag` (an invalid
IPv6 authority), normalization returns the fragment-stripped `//[/`,
not the original raw string. -/
theorem fail_soft_counterexample :
    normalizeUrl "//[/#frag".data "https://x.com".data = "//[/".data ∧
    normalizeUrl "//[/#frag".data "https://x.com".data ≠ "//[/#frag".data := by
  decide

/-- C7 (amended): when URL resolution raises, normalization never
propagates the exception and returns the raw reference with everything
from the first `#` removed; a raising reference without a fragment is
returned completely unchanged. -/
theorem normalize_fail_soft :
    ∀ (u b : Str), urljoinE b (pySplit1 '#' u).1 = none →
      normalizeUrl u b = (pySplit1 '#' u).1 ∧ ('#' ∉ u → normalizeUrl u b = u) := by
  intro u b h
  constructor
  · simp only [normalizeUrl, h]
  · intro hn
    have h' : urljoinE b u = none := by
      rw [pySplit1_of_not_mem '#' u hn] at h
      exact h
    simp only [normalizeUrl, h', pySplit1_of_not_mem '#' u hn]

/-- Witness for the amended C7 on a concrete fragment-free raising
input. -/
theorem normalize_fail_soft_witness :
    normalizeUrl "//[/".data "https://x.com".data = "//[/".data :=
  (normalize_fail_soft "//[/".data "https://x.com".data (by decide)).2 (by decide)

/-! ### Character provenance of normalization (C5)

Percent-decoding would replace a `%XX` triple by a character that was
not in the input (for `%20`, a literal space).  The lemmas below trace
every character of the normalizer's output back to the inputs, the URL
separator characters, or ASCII lower-casing of an input character, so
no decoded character can ever appear. -/

theorem mem_pySplit1_fst (c : Char) (s : Str) (x : Char) (h : x ∈ (pySplit1 c s).1) :
    x ∈ s := by
  induction s with
  | nil => simp [pySplit1] at h
  | cons y t ih =>
    by_cases hy : y = c
    · simp [pySplit1, hy] at h
    · simp only [pySplit1, if_neg hy] at h
      rcases List.mem_cons.mp h with h1 | h1
      · exact h1 ▸ List.mem_cons_self y t
      · exact List.mem_cons_of_mem y (ih h1)

theorem mem_pySplit1_snd (c : Char) (s : Str) (t : Str) (x : Char)
    (ht : (pySplit1 c s).2 = some t) (h : x ∈ t) : x ∈ s := by
  induction s with
  | nil => simp [pySplit1] at ht
  | cons y ys ih =>
    by_cases hy : y = c
    · simp only [pySplit1, if_pos hy, Option.some.injEq] at ht
      exact List.mem_cons_of_mem y (ht ▸ h)
    · simp only [pySplit1, if_neg hy] at ht
      exact List.mem_cons_of_mem y (ih ht)

theorem mem_pySplitOnChar (c : Char) (s : Str) (p : Str) (x : Char)
    (hp : p ∈ pySplitOnChar c s) (h : x ∈ p) : x ∈ s := by
  induction s generalizing p with
  | nil =>
    simp only [pySplitOnChar, List.mem_singleton] at hp
    subst hp
    simp at h
  | cons y t ih =>
    by_cases hy : y = c
    · simp only [pySplitOnChar, if_pos hy] at hp
      rcases List.mem_cons.mp hp with h1 | h1
      · subst h1; simp at h
      · exact List.mem_cons_of_mem y (ih p h1 h)
    · simp only [pySplitOnChar, if_neg hy] at hp
      cases hrec : pySplitOnChar c t with
      | nil =>
        rw [hrec] at hp
        simp only [List.mem_singleton] at hp
        subst hp
        rcases List.mem_cons.mp h with h1 | h1
        · exact h1 ▸ List.mem_cons_self y t
        · simp at h1
      | cons q qs =>
        rw [hrec] at hp
        rcases List.mem_cons.mp hp with h1 | h1
        · subst h1
          rcases List.mem_cons.mp h with h2 | h2
          · exact h2 ▸ List.mem_cons_self y t
          · exact List.mem_cons_of_mem y (ih q (hrec ▸ List.mem_cons_self q qs) h2)
        · exact List.mem_cons_of_mem y (ih p (hrec ▸ List.mem_cons_of_mem q h1) h)

theorem mem_pyJoin (c : Char) (parts : List Str) (x : Char) (h : x ∈ pyJoin c parts) :
    x = c ∨ ∃ p ∈ parts, x ∈ p := by
  induction parts with
  | nil => simp [pyJoin] at h
  | cons p t ih =>
    cases t with
    | nil =>
      right
      exact ⟨p, List.mem_singleton_self p, h⟩
    | cons q u =>
      rw [pyJoin] at h
      rcases List.mem_append.mp h with h1 | h1
      · right; exact ⟨p, List.mem_cons_self p _, h1⟩
      · rcases List.mem_cons.mp h1 with h2 | h2
        · left; exact h2
        · rcases ih h2 with h3 | ⟨r, hr, hx⟩
          · left; exact h3
          · right; exact ⟨r, List.mem_cons_of_mem p hr, hx⟩

theorem mem_pyLower (s : Str) (x : Char) (h : x ∈ pyLower s) :
    ∃ d ∈ s, x = pyLowerChar d := by
  obtain ⟨d, hd, he⟩ := List.mem_map.mp h
  exact ⟨d, hd, he.symm⟩

theorem pyStripC0_subset (s : Str) : pyStripC0 s ⊆ s := by
  intro x hx
  unfold pyStripC0 at hx
  rw [List.mem_reverse] at hx
  have h1 := (List.dropWhile_sublist isC0OrSpace).subset hx
  rw [List.mem_reverse] at h1
  exact (List.dropWhile_sublist isC0OrSpace).subset h1

theorem removeUnsafeBytes_subset (s : Str) : removeUnsafeBytes s ⊆ s :=
  (List.filter_sublist s).subset

theorem pyLstripC0_subset (s : Str) : pyLstripC0 s ⊆ s :=
  (List.dropWhile_sublist isC0OrSpace).subset

theorem pyRstripSlash_subset (s : Str) : pyRstripSlash s ⊆ s := by
  intro x hx
  unfold pyRstripSlash at hx
  rw [List.mem_reverse] at hx
  have h1 := (List.dropWhile_sublist (fun c => c = '/')).subset hx
  rw [List.mem_reverse] at h1
  exact h1

theorem splitparams_fst_subset (s : Str) : (splitparams s).1 ⊆ s := by
  unfold splitparams
  split
  · dsimp only
    split
    · simp
    · simp [(List.take_sublist _ s).subset]
  · split
    · simp
    · simp [(List.take_sublist _ s).subset]

theorem splitparams_snd_subset (s : Str) : (splitparams s).2 ⊆ s := by
  unfold splitparams
  split
  · dsimp only
    split
    · simp
    · simp [(List.drop_sublist _ s).subset]
  · split
    · simp
    · simp [(List.drop_sublist _ s).subset]

theorem schemeScan_chars (s : Str) (su : Str × Str) (h : schemeScan s = some su) :
    (∀ x ∈ su.1, ∃ d ∈ s, x = pyLowerChar d) ∧ su.2 ⊆ s := by
  unfold schemeScan at h
  cases hf : s.findIdx? (fun c => c = ':') with
  | none => rw [hf] at h; simp at h
  | some i =>
    rw [hf] at h
    dsimp only at h
    split at h
    · rcases Option.some.injEq .. ▸ h with he
      have he' : (pyLower (s.take i), s.drop (i + 1)) = su := by
        simpa using h
      subst he'
      constructor
      · intro x hx
        obtain ⟨d, hd, he2⟩ := mem_pyLower _ x hx
        exact ⟨d, (List.take_sublist i s).subset hd, he2⟩
      · exact (List.drop_sublist (i + 1) s).subset
    · simp at h

theorem urlsplitE_chars (url dflt : Str) (r : SplitResult) (h : urlsplitE url dflt = some r) :
    (∀ x ∈ r.scheme, x ∈ url ∨ x ∈ dflt ∨ ∃ d, d ∈ url ∧ x = pyLowerChar d) ∧
    (∀ x ∈ r.netloc, x ∈ url) ∧ (∀ x ∈ r.path, x ∈ url) ∧
    (∀ x ∈ r.query, x ∈ url) ∧ (∀ x ∈ r.fragment, x ∈ url) := by
  have hu1 : removeUnsafeBytes (pyLstripC0 url) ⊆ url := fun x hx =>
    pyLstripC0_subset url (removeUnsafeBytes_subset _ hx)
  have hd : removeUnsafeBytes (pyStripC0 dflt) ⊆ dflt := fun x hx =>
    pyStripC0_subset dflt (removeUnsafeBytes_subset _ hx)
  unfold urlsplitE at h
  dsimp only at h
  -- the scheme scan
  have hscheme : ∀ (su : Str × Str),
      su = (match schemeScan (removeUnsafeBytes (pyLstripC0 url)) with
            | some su => su
            | none => (removeUnsafeBytes (pyStripC0 dflt), removeUnsafeBytes (pyLstripC0 url))) →
      (∀ x ∈ su.1, x ∈ url ∨ x ∈ dflt ∨ ∃ d, d ∈ url ∧ x = pyLowerChar d) ∧
        su.2 ⊆ removeUnsafeBytes (pyLstripC0 url) := by
    intro su hsu
    cases hscan : schemeScan (removeUnsafeBytes (pyLstripC0 url)) with
    | none =>
      rw [hscan] at hsu
      subst hsu
      exact ⟨fun x hx => Or.inr (Or.inl (hd hx)), fun x hx => hx⟩
    | some sv =>
      rw [hscan] at hsu
      subst hsu
      obtain ⟨h1, h2⟩ := schemeScan_chars _ _ hscan
      refine ⟨fun x hx => ?_, h2⟩
      obtain ⟨d, hdm, he⟩ := h1 x hx
      exact Or.inr (Or.inr ⟨d, hu1 hdm, he⟩)
  obtain ⟨hs1, hs2⟩ := hscheme _ rfl
  set su := (match schemeScan (removeUnsafeBytes (pyLstripC0 url)) with
            | some su => su
            | none => (removeUnsafeBytes (pyStripC0 dflt), removeUnsafeBytes (pyLstripC0 url))) with hsu
  have hsub2 : su.2 ⊆ url := fun x hx => hu1 (hs2 hx)
  -- the netloc split
  have hnet : ∀ (nr : Str × Str),
      (if su.2.take 2 = ['/', '/'] then
        (let nr0 := splitnetloc2 su.2
         if ('[' ∈ nr0.1 ∧ ']' ∉ nr0.1) ∨ (']' ∈ nr0.1 ∧ '[' ∉ nr0.1) then none
         else if '[' ∈ nr0.1 ∧ ']' ∈ nr0.1 then
           if checkBracketedHost (bracketedHostOf nr0.1) then some nr0 else none
         else some nr0)
       else some ([], su.2)) = some nr →
      nr.1 ⊆ url ∧ nr.2 ⊆ url := by
    intro nr hnr
    have hnl : splitnetloc2 su.2 = ((su.2.drop 2).takeWhile (fun c => ¬ isNetlocDelim c),
        (su.2.drop 2).dropWhile (fun c => ¬ isNetlocDelim c)) := rfl
    have hnl1 : (splitnetloc2 su.2).1 ⊆ url := by
      rw [hnl]
      intro x hx
      exact hsub2 ((List.drop_sublist 2 su.2).subset
        ((List.takeWhile_sublist _).subset hx))
    have hnl2 : (splitnetloc2 su.2).2 ⊆ url := by
      rw [hnl]
      intro x hx
      exact hsub2 ((List.drop_sublist 2 su.2).subset
        ((List.dropWhile_sublist _).subset hx))
    split at hnr
    · dsimp only at hnr
      split at hnr
      · simp at hnr
      · split at hnr
        · split at hnr
          · rcases Option.some.injEq .. ▸ hnr with he
            have he' : splitnetloc2 su.2 = nr := by simpa using hnr
            subst he'
            exact ⟨hnl1, hnl2⟩
          · simp at hnr
        · have he' : splitnetloc2 su.2 = nr := by simpa using hnr
          subst he'
          exact ⟨hnl1, hnl2⟩
    · have he' : (([] : Str), su.2) = nr := by simpa using hnr
      subst he'
      exact ⟨by simp, hsub2⟩
  -- discharge the final match
  cases hmr : (if su.2.take 2 = ['/', '/'] then
        (let nr0 := splitnetloc2 su.2
         if ('[' ∈ nr0.1 ∧ ']' ∉ nr0.1) ∨ (']' ∈ nr0.1 ∧ '[' ∉ nr0.1) then none
         else if '[' ∈ nr0.1 ∧ ']' ∈ nr0.1 then
           if checkBracketedHost (bracketedHostOf nr0.1) then some nr0 else none
         else some nr0)
       else some ([], su.2)) with
  | none =>
    rw [hmr] at h
    simp at h
  | some nr =>
    rw [hmr] at h
    obtain ⟨hn1, hn2⟩ := hnet nr hmr
    dsimp only at h
    rcases Option.some.injEq .. ▸ h with he
    have he' : (⟨su.1, nr.1, (pySplit1 '?' (pySplit1 '#' nr.2).1).1,
        (pySplit1 '?' (pySplit1 '#' nr.2).1).2.getD [],
        (pySplit1 '#' nr.2).2.getD []⟩ : SplitResult) = r := by
      simpa using h
    subst he'
    refine ⟨hs1, hn1, ?_, ?_, ?_⟩
    · intro x hx
      exact hn2 (mem_pySplit1_fst '#' nr.2 x (mem_pySplit1_fst '?' _ x hx))
    · intro x hx
      cases hq : (pySplit1 '?' (pySplit1 '#' nr.2).1).2 with
      | none => rw [hq] at hx; simp at hx
      | some q =>
        rw [hq] at hx
        simp only [Option.getD_some] at hx
        exact hn2 (mem_pySplit1_fst '#' nr.2 x (mem_pySplit1_snd '?' _ q x hq hx))
    · intro x hx
      cases hf : (pySplit1 '#' nr.2).2 with
      | none => rw [hf] at hx; simp at hx
      | some f =>
        rw [hf] at hx
        simp only [Option.getD_some] at hx
        exact hn2 (mem_pySplit1_snd '#' nr.2 f x hf hx)

theorem urlparseE_chars (url dflt : Str) (p : ParseResult) (h : urlparseE url dflt = some p) :
    (∀ x ∈ p.scheme, x ∈ url ∨ x ∈ dflt ∨ ∃ d, d ∈ url ∧ x = pyLowerChar d) ∧
    (∀ x ∈ p.netloc, x ∈ url) ∧ (∀ x ∈ p.path, x ∈ url) ∧
    (∀ x ∈ p.params, x ∈ url) ∧ (∀ x ∈ p.query, x ∈ url) ∧
    (∀ x ∈ p.fragment, x ∈ url) := by
  unfold urlparseE at h
  cases hs : urlsplitE url dflt with
  | none => rw [hs] at h; simp at h
  | some r =>
    rw [hs] at h
    obtain ⟨h1, h2, h3, h4, h5⟩ := urlsplitE_chars url dflt r hs
    dsimp only at h
    split at h
    · have he : (⟨r.scheme, r.netloc, (splitparams r.path).1, (splitparams r.path).2,
          r.query, r.fragment⟩ : ParseResult) = p := by simpa using h
      subst he
      exact ⟨h1, h2, fun x hx => h3 x (splitparams_fst_subset _ hx),
        fun x hx => h3 x (splitparams_snd_subset _ hx), h4, h5⟩
    · have he : (⟨r.scheme, r.netloc, r.path, [], r.query, r.fragment⟩ : ParseResult) = p := by
        simpa using h
      subst he
      exact ⟨h1, h2, h3, fun x hx => absurd hx (List.not_mem_nil x), h4, h5⟩

theorem urlunsplit_chars (r : SplitResult) (x : Char) (h : x ∈ urlunsplit r) :
    x ∈ r.scheme ∨ x ∈ r.netloc ∨ x ∈ r.path ∨ x ∈ r.query ∨ x ∈ r.fragment ∨
      x ∈ urlSepChars := by
  have hslash : ('/' : Char) ∈ urlSepChars := by simp [urlSepChars]
  have hcolon : (':' : Char) ∈ urlSepChars := by simp [urlSepChars]
  have hque : ('?' : Char) ∈ urlSepChars := by simp [urlSepChars]
  have hhash : ('#' : Char) ∈ urlSepChars := by simp [urlSepChars]
  unfold urlunsplit at h
  dsimp only at h
  have step1 : ∀ y : Char,
      y ∈ (if r.netloc ≠ [] ∨ (r.scheme ≠ [] ∧ r.scheme ∈ usesNetloc ∧ r.path.take 2 ≠ ['/', '/'])
           then '/' :: '/' :: (r.netloc ++ (if r.path ≠ [] ∧ r.path.take 1 ≠ ['/']
                                            then '/' :: r.path else r.path))
           else r.path) →
      y ∈ r.netloc ∨ y ∈ r.path ∨ y ∈ urlSepChars := by
    intro y hy
    split at hy
    · rcases List.mem_cons.mp hy with rfl | hy1
      · exact Or.inr (Or.inr hslash)
      · rcases List.mem_cons.mp hy1 with rfl | hy2
        · exact Or.inr (Or.inr hslash)
        · rcases List.mem_append.mp hy2 with hy3 | hy3
          · exact Or.inl hy3
          · split at hy3
            · rcases List.mem_cons.mp hy3 with rfl | hy4
              · exact Or.inr (Or.inr hslash)
              · exact Or.inr (Or.inl hy4)
            · exact Or.inr (Or.inl hy3)
    · exact Or.inr (Or.inl hy)
  have step2 : ∀ y : Char,
      y ∈ (if r.scheme ≠ []
           then r.scheme ++ ':' ::
             (if r.netloc ≠ [] ∨ (r.scheme ≠ [] ∧ r.scheme ∈ usesNetloc ∧ r.path.take 2 ≠ ['/', '/'])
              then '/' :: '/' :: (r.netloc ++ (if r.path ≠ [] ∧ r.path.take 1 ≠ ['/']
                                               then '/' :: r.path else r.path))
              else r.path)
           else (if r.netloc ≠ [] ∨ (r.scheme ≠ [] ∧ r.scheme ∈ usesNetloc ∧ r.path.take 2 ≠ ['/', '/'])
                 then '/' :: '/' :: (r.netloc ++ (if r.path ≠ [] ∧ r.path.take 1 ≠ ['/']
                                                  then '/' :: r.path else r.path))
                 else r.path)) →
      y ∈ r.scheme ∨ y ∈ r.netloc ∨ y ∈ r.path ∨ y ∈ urlSepChars := by
    intro y hy
    split at hy
    · rcases List.mem_append.mp hy with hy1 | hy1
      · exact Or.inl hy1
      · rcases List.mem_cons.mp hy1 with rfl | hy2
        · exact Or.inr (Or.inr (Or.inr hcolon))
        · rcases step1 y hy2 with h1 | h1 | h1
          · exact Or.inr (Or.inl h1)
          · exact Or.inr (Or.inr (Or.inl h1))
          · exact Or.inr (Or.inr (Or.inr h1))
    · rcases step1 y hy with h1 | h1 | h1
      · exact Or.inr (Or.inl h1)
      · exact Or.inr (Or.inr (Or.inl h1))
      · exact Or.inr (Or.inr (Or.inr h1))
  -- peel the fragment, then the query
  split at h
  · rcases List.mem_append.mp h with h1 | h1
    · clear h
      split at h1
      · rcases List.mem_append.mp h1 with h2 | h2
        · rcases step2 x h2 with h3 | h3 | h3 | h3
          · exact Or.inl h3
          · exact Or.inr (Or.inl h3)
          · exact Or.inr (Or.inr (Or.inl h3))
          · exact Or.inr (Or.inr (Or.inr (Or.inr (Or.inr h3))))
        · rcases List.mem_cons.mp h2 with rfl | h3
          · exact Or.inr (Or.inr (Or.inr (Or.inr (Or.inr hque))))
          · exact Or.inr (Or.inr (Or.inr (Or.inl h3)))
      · rcases step2 x h1 with h3 | h3 | h3 | h3
        · exact Or.inl h3
        · exact Or.inr (Or.inl h3)
        · exact Or.inr (Or.inr (Or.inl h3))
        · exact Or.inr (Or.inr (Or.inr (Or.inr (Or.inr h3))))
    · rcases List.mem_cons.mp h1 with rfl | h3
      · exact Or.inr (Or.inr (Or.inr (Or.inr (Or.inr hhash))))
      · exact Or.inr (Or.inr (Or.inr (Or.inr (Or.inl h3))))
  · split at h
    · rcases List.mem_append.mp h with h2 | h2
      · rcases step2 x h2 with h3 | h3 | h3 | h3
        · exact Or.inl h3
        · exact Or.inr (Or.inl h3)
        · exact Or.inr (Or.inr (Or.inl h3))
        · exact Or.inr (Or.inr (Or.inr (Or.inr (Or.inr h3))))
      · rcases List.mem_cons.mp h2 with rfl | h3
        · exact Or.inr (Or.inr (Or.inr (Or.inr (Or.inr hque))))
        · exact Or.inr (Or.inr (Or.inr (Or.inl h3)))
    · rcases step2 x h with h3 | h3 | h3 | h3
      · exact Or.inl h3
      · exact Or.inr (Or.inl h3)
      · exact Or.inr (Or.inr (Or.inl h3))
      · exact Or.inr (Or.inr (Or.inr (Or.inr (Or.inr h3))))

theorem urlunparse_chars (p : ParseResult) (x : Char) (h : x ∈ urlunparse p) :
    x ∈ p.scheme ∨ x ∈ p.netloc ∨ x ∈ p.path ∨ x ∈ p.params ∨ x ∈ p.query ∨
      x ∈ p.fragment ∨ x ∈ urlSepChars := by
  have hsemi : (';' : Char) ∈ urlSepChars := by simp [urlSepChars]
  unfold urlunparse at h
  rcases urlunsplit_chars _ x h with h1 | h1 | h1 | h1 | h1
  · exact Or.inl h1
  · exact Or.inr (Or.inl h1)
  · dsimp only at h1
    split at h1
    · rcases List.mem_append.mp h1 with h2 | h2
      · exact Or.inr (Or.inr (Or.inl h2))
      · rcases List.mem_cons.mp h2 with rfl | h3
        · exact Or.inr (Or.inr (Or.inr (Or.inr (Or.inr (Or.inr hsemi)))))
        · exact Or.inr (Or.inr (Or.inr (Or.inl h3)))
    · exact Or.inr (Or.inr (Or.inl h1))
  · exact Or.inr (Or.inr (Or.inr (Or.inr (Or.inl h1))))
  · rcases h1 with h1 | h1
    · exact Or.inr (Or.inr (Or.inr (Or.inr (Or.inr (Or.inl h1)))))
    · exact Or.inr (Or.inr (Or.inr (Or.inr (Or.inr (Or.inr h1)))))

theorem resolveSegments_subset (segments : List Str) (p : Str)
    (h : p ∈ resolveSegments segments) : p ∈ segments := by
  suffices haux : ∀ (acc : List Str), p ∈ segments.foldl (fun acc seg =>
      if seg = "..".data then acc.dropLast
      else if seg = ".".data then acc
      else acc ++ [seg]) acc → p ∈ acc ∨ p ∈ segments by
    rcases haux [] h with h1 | h1
    · simp at h1
    · exact h1
  clear h
  induction segments with
  | nil => intro acc h; exact Or.inl h
  | cons seg t ih =>
    intro acc h
    rw [List.foldl_cons] at h
    have step : ∀ (acc' : List Str),
        (if seg = "..".data then acc.dropLast
         else if seg = ".".data then acc
         else acc ++ [seg]) = acc' → ∀ q ∈ acc', q ∈ acc ∨ q = seg := by
      intro acc' ha q hq
      subst ha
      split at hq
      · exact Or.inl ((List.dropLast_sublist acc).subset hq)
      · split at hq
        · exact Or.inl hq
        · rcases List.mem_append.mp hq with h2 | h2
          · exact Or.inl h2
          · simp only [List.mem_singleton] at h2
            exact Or.inr h2
    rcases ih _ h with h1 | h1
    · rcases step _ rfl p h1 with h2 | h2
      · exact Or.inl h2
      · exact Or.inr (h2 ▸ List.mem_cons_self seg t)
    · exact Or.inr (List.mem_cons_of_mem seg h1)

theorem filterMiddle_subset (segments : List Str) (p : Str)
    (h : p ∈ filterMiddle segments) : p ∈ segments := by
  match segments with
  | [] => simp [filterMiddle] at h
  | [x] => simpa [filterMiddle] using h
  | x :: y :: t =>
    rw [filterMiddle] at h
    cases hlast : (y :: t).getLast? with
    | none => simp at hlast
    | some lastSeg =>
      rw [hlast] at h
      rcases List.mem_cons.mp h with h1 | h1
      · exact h1 ▸ List.mem_cons_self x _
      · rcases List.mem_append.mp h1 with h2 | h2
        · exact List.mem_cons_of_mem x
            (((List.dropLast_sublist (y :: t)).subset ((List.filter_sublist _).subset h2)))
        · simp only [List.mem_singleton] at h2
          subst h2
          exact List.mem_cons_of_mem x (List.mem_of_mem_getLast? hlast)

theorem urljoinE_chars (b u : Str) (j : Str) (h : urljoinE b u = some j) :
    ∀ x ∈ j, x ∈ u ∨ x ∈ b ∨ x ∈ urlSepChars ∨
      ∃ d, (d ∈ u ∨ d ∈ b) ∧ x = pyLowerChar d := by
  intro x hx
  unfold urljoinE at h
  split at h
  · -- base empty: the reference is returned
    have he : u = j := by simpa using h
    exact Or.inl (he ▸ hx)
  · split at h
    · -- reference empty: the base is returned
      have he : b = j := by simpa using h
      exact Or.inr (Or.inl (he ▸ hx))
    · cases hbp : urlparseE b [] with
      | none => rw [hbp] at h; simp at h
      | some bp =>
        rw [hbp] at h
        dsimp only at h
        obtain ⟨hb1, hb2, hb3, hb4, hb5, hb6⟩ := urlparseE_chars b [] bp hbp
        have hbscheme : ∀ y ∈ bp.scheme, y ∈ b ∨ ∃ d, d ∈ b ∧ y = pyLowerChar d := by
          intro y hy
          rcases hb1 y hy with h1 | h1 | h1
          · exact Or.inl h1
          · simp at h1
          · exact Or.inr h1
        cases hup : urlparseE u bp.scheme with
        | none => rw [hup] at h; simp at h
        | some up =>
          rw [hup] at h
          obtain ⟨hu1, hu2, hu3, hu4, hu5, hu6⟩ := urlparseE_chars u bp.scheme up hup
          have huscheme : ∀ y ∈ up.scheme,
              y ∈ u ∨ y ∈ b ∨ ∃ d, (d ∈ u ∨ d ∈ b) ∧ y = pyLowerChar d := by
            intro y hy
            rcases hu1 y hy with h1 | h1 | h1
            · exact Or.inl h1
            · rcases hbscheme y h1 with h2 | ⟨d, hd, he⟩
              · exact Or.inr (Or.inl h2)
              · exact Or.inr (Or.inr ⟨d, Or.inr hd, he⟩)
            · obtain ⟨d, hd, he⟩ := h1
              exact Or.inr (Or.inr ⟨d, Or.inl hd, he⟩)
          dsimp only at h
          split at h
          · -- scheme mismatch: the reference is returned verbatim
            have he : u = j := by simpa using h
            exact Or.inl (he ▸ hx)
          · split at h
            · -- absolute reference with an authority
              have he : urlunparse up = j := by simpa using h
              subst he
              rcases urlunparse_chars up x hx with h1 | h1 | h1 | h1 | h1 | h1 | h1
              · rcases huscheme x h1 with h2 | h2 | h2
                · exact Or.inl h2
                · exact Or.inr (Or.inl h2)
                · exact Or.inr (Or.inr (Or.inr h2))
              · exact Or.inl (hu2 x h1)
              · exact Or.inl (hu3 x h1)
              · exact Or.inl (hu4 x h1)
              · exact Or.inl (hu5 x h1)
              · exact Or.inl (hu6 x h1)
              · exact Or.inr (Or.inr (Or.inl h1))
            · split at h
              · -- empty path and params: keep the base path
                have he : urlunparse ⟨up.scheme,
                    (if up.scheme ∈ usesNetloc then bp.netloc else up.netloc),
                    bp.path, bp.params,
                    (if up.query = [] then bp.query else up.query), up.fragment⟩ = j := by
                  simpa using h
                subst he
                rcases urlunparse_chars _ x hx with h1 | h1 | h1 | h1 | h1 | h1 | h1
                · rcases huscheme x h1 with h2 | h2 | h2
                  · exact Or.inl h2
                  · exact Or.inr (Or.inl h2)
                  · exact Or.inr (Or.inr (Or.inr h2))
                · dsimp only at h1
                  split at h1
                  · exact Or.inr (Or.inl (hb2 x h1))
                  · exact Or.inl (hu2 x h1)
                · exact Or.inr (Or.inl (hb3 x h1))
                · exact Or.inr (Or.inl (hb4 x h1))
                · dsimp only at h1
                  split at h1
                  · exact Or.inr (Or.inl (hb5 x h1))
                  · exact Or.inl (hu5 x h1)
                · exact Or.inl (hu6 x h1)
                · exact Or.inr (Or.inr (Or.inl h1))
              · -- the path-merging branch
                have hsegchars : ∀ q ∈ (if up.path.take 1 = ['/'] then
                      pySplitOnChar '/' up.path
                    else filterMiddle
                      ((if (pySplitOnChar '/' bp.path).getLast? ≠ some [] then
                          (pySplitOnChar '/' bp.path).dropLast
                        else pySplitOnChar '/' bp.path) ++ pySplitOnChar '/' up.path)),
                    ∀ y ∈ q, y ∈ u ∨ y ∈ b := by
                  intro q hq y hy
                  split at hq
                  · exact Or.inl (hu3 y (mem_pySplitOnChar '/' up.path q y hq hy))
                  · have hq2 := filterMiddle_subset _ _ hq
                    rcases List.mem_append.mp hq2 with h2 | h2
                    · have h3 : q ∈ pySplitOnChar '/' bp.path := by
                        split at h2
                        · exact (List.dropLast_sublist _).subset h2
                        · exact h2
                      exact Or.inr (hb3 y (mem_pySplitOnChar '/' bp.path q y h3 hy))
                    · exact Or.inl (hu3 y (mem_pySplitOnChar '/' up.path q y h2 hy))
                have hrpath : ∀ (segments : List Str),
                    (∀ q ∈ segments, ∀ y ∈ q, y ∈ u ∨ y ∈ b) →
                    ∀ y ∈ (if pyJoin '/' (if segments.getLast? = some ".".data ∨
                               segments.getLast? = some "..".data
                             then resolveSegments segments ++ [[]]
                             else resolveSegments segments) = []
                           then ['/']
                           else pyJoin '/' (if segments.getLast? = some ".".data ∨
                               segments.getLast? = some "..".data
                             then resolveSegments segments ++ [[]]
                             else resolveSegments segments)),
                      y ∈ u ∨ y ∈ b ∨ y ∈ urlSepChars := by
                  intro segments hseg y hy
                  have hres : ∀ q ∈ resolveSegments segments, ∀ z ∈ q, z ∈ u ∨ z ∈ b :=
                    fun q hq z hz => hseg q (resolveSegments_subset _ q hq) z hz
                  by_cases hc : segments.getLast? = some ".".data ∨
                      segments.getLast? = some "..".data
                  · rw [if_pos hc] at hy
                    split at hy
                    · simp only [List.mem_singleton] at hy
                      subst hy
                      exact Or.inr (Or.inr (by simp [urlSepChars]))
                    · rcases mem_pyJoin '/' _ y hy with h2 | ⟨q, hq, hyq⟩
                      · exact Or.inr (Or.inr (h2 ▸ by simp [urlSepChars]))
                      · rcases List.mem_append.mp hq with h3 | h3
                        · rcases hres q h3 y hyq with h4 | h4
                          · exact Or.inl h4
                          · exact Or.inr (Or.inl h4)
                        · simp only [List.mem_singleton] at h3
                          subst h3
                          simp at hyq
                  · rw [if_neg hc] at hy
                    split at hy
                    · simp only [List.mem_singleton] at hy
                      subst hy
                      exact Or.inr (Or.inr (by simp [urlSepChars]))
                    · rcases mem_pyJoin '/' _ y hy with h2 | ⟨q, hq, hyq⟩
                      · exact Or.inr (Or.inr (h2 ▸ by simp [urlSepChars]))
                      · rcases hres q hq y hyq with h4 | h4
                        · exact Or.inl h4
                        · exact Or.inr (Or.inl h4)
                simp only [Option.some.injEq] at h
                subst h
                rcases urlunparse_chars _ x hx with h1 | h1 | h1 | h1 | h1 | h1 | h1
                · rcases huscheme x h1 with h2 | h2 | h2
                  · exact Or.inl h2
                  · exact Or.inr (Or.inl h2)
                  · exact Or.inr (Or.inr (Or.inr h2))
                · dsimp only at h1
                  split at h1
                  · exact Or.inr (Or.inl (hb2 x h1))
                  · exact Or.inl (hu2 x h1)
                · rcases hrpath _ hsegchars x h1 with h2 | h2 | h2
                  · exact Or.inl h2
                  · exact Or.inr (Or.inl h2)
                  · exact Or.inr (Or.inr (Or.inl h2))
                · exact Or.inl (hu4 x h1)
                · exact Or.inl (hu5 x h1)
                · exact Or.inl (hu6 x h1)
                · exact Or.inr (Or.inr (Or.inl h1))

theorem normalizeUrl_chars (u b : Str) (x : Char) (h : x ∈ normalizeUrl u b) :
    x ∈ u ∨ x ∈ b ∨ x ∈ urlSepChars ∨ ∃ d, (d ∈ u ∨ d ∈ b) ∧ x = pyLowerChar d := by
  unfold normalizeUrl at h
  dsimp only at h
  cases hj : urljoinE b (pySplit1 '#' u).1 with
  | none =>
    rw [hj] at h
    exact Or.inl (mem_pySplit1_fst '#' u x h)
  | some absUrl =>
    rw [hj] at h
    dsimp only at h
    have hanchor : ∀ y ∈ (pySplit1 '#' u).2.getD [], y ∈ u := by
      intro y hy
      cases ht : (pySplit1 '#' u).2 with
      | none => rw [ht] at hy; simp at hy
      | some t =>
        rw [ht] at hy
        simp only [Option.getD_some] at hy
        exact mem_pySplit1_snd '#' u t y ht hy
    have hjoin : ∀ y ∈ absUrl,
        y ∈ u ∨ y ∈ b ∨ y ∈ urlSepChars ∨ ∃ d, (d ∈ u ∨ d ∈ b) ∧ y = pyLowerChar d := by
      intro y hy
      rcases urljoinE_chars b (pySplit1 '#' u).1 absUrl hj y hy with h1 | h1 | h1 | h1
      · exact Or.inl (mem_pySplit1_fst '#' u y h1)
      · exact Or.inr (Or.inl h1)
      · exact Or.inr (Or.inr (Or.inl h1))
      · obtain ⟨d, hd, he⟩ := h1
        rcases hd with hd | hd
        · exact Or.inr (Or.inr (Or.inr ⟨d, Or.inl (mem_pySplit1_fst '#' u d hd), he⟩))
        · exact Or.inr (Or.inr (Or.inr ⟨d, Or.inr hd, he⟩))
    have h2 := pyRstripSlash_subset _ h
    split at h2
    · rcases List.mem_append.mp h2 with h3 | h3
      · exact hjoin x h3
      · rcases List.mem_cons.mp h3 with rfl | h4
        · exact Or.inr (Or.inr (Or.inl (by simp [urlSepChars])))
        · exact Or.inl (hanchor x h4)
    · exact hjoin x h2

theorem char_toNat_ofNat (n : Nat) (h : n.isValidChar) : (Char.ofNat n).toNat = n := by
  have h32 : n < 4294967296 := by
    rcases h with h | h
    · omega
    · omega
  simp [Char.ofNat, h, Char.ofNatAux, Char.toNat, UInt32.ofNat', UInt32.toNat,
    BitVec.toNat_ofNat, Nat.mod_eq_of_lt h32]

theorem pyLowerChar_space (d : Char) (h : pyLowerChar d = ' ') : d = ' ' := by
  unfold pyLowerChar at h
  split at h
  · exfalso
    next hc =>
      obtain ⟨h1, h2⟩ := hc
      have h1' : 65 ≤ d.toNat := by
        rw [Char.le_def, UInt32.le_def, BitVec.le_def] at h1
        exact h1
      have h2' : d.toNat ≤ 90 := by
        rw [Char.le_def, UInt32.le_def, BitVec.le_def] at h2
        exact h2
      have hval : (Char.ofNat (d.toNat + 32)).toNat = d.toNat + 32 :=
        char_toNat_ofNat _ (Or.inl (by omega))
      have he := congrArg Char.toNat h
      rw [hval] at he
      have hsp : (' ' : Char).toNat = 32 := rfl
      rw [hsp] at he
      omega
  · exact h

/-- C5 counterexample: the percent-encoded octet `%20` of a path
segment removed by dot-segment resolution does not appear verbatim in
the output, so not every `%XX` sequence of the input survives. -/
theorem percent_verbatim_counterexample :
    "%20".data <:+: "x%20/../b".data ∧
    normalizeUrl "x%20/../b".data "https://x.com".data = "https://x.com/b".data ∧
    ¬ "%20".data <:+: normalizeUrl "x%20/../b".data "https://x.com".data := by
  decide

/-- C5 (amended): normalization never percent-decodes: every character
of the output occurs in the inputs, is URL punctuation, or is the
ASCII lower-casing of an input character; hence inputs without a
literal space never produce one, and the claim's example keeps its
`%20` and contains no space. -/
theorem normalize_never_decodes :
    (∀ (u b : Str) (x : Char), x ∈ normalizeUrl u b →
      x ∈ u ∨ x ∈ b ∨ x ∈ urlSepChars ∨ ∃ d, (d ∈ u ∨ d ∈ b) ∧ x = pyLowerChar d) ∧
    (∀ (u b : Str), ' ' ∉ u → ' ' ∉ b → ' ' ∉ normalizeUrl u b) ∧
    normalizeUrl "/a%20b".data "https://x.com".data = "https://x.com/a%20b".data ∧
    "%20".data <:+: normalizeUrl "/a%20b".data "https://x.com".data ∧
    ' ' ∉ normalizeUrl "/a%20b".data "https://x.com".data := by
  refine ⟨normalizeUrl_chars, ?_, by decide, by decide, by decide⟩
  intro u b hu hb hsp
  rcases normalizeUrl_chars u b ' ' hsp with h | h | h | ⟨d, hd, he⟩
  · exact hu h
  · exact hb h
  · simp [urlSepChars] at h
  · have hds := pyLowerChar_space d he.symm
    subst hds
    rcases hd with hd | hd
    · exact hu hd
    · exact hb hd

/-- Witness for the amended C5 on the claim's concrete example. -/
theorem normalize_never_decodes_witness :
    ' ' ∉ normalizeUrl "/a%20b".data "https://x.com".data :=
  normalize_never_decodes.2.1 "/a%20b".data "https://x.com".data (by decide) (by decide)


/-! ### Idempotence of normalization (C4) -/

theorem pyRstripSlash_eq_self (s : Str) (h : s.getLast? ≠ some '/') :
    pyRstripSlash s = s := by
  unfold pyRstripSlash
  have hd : s.reverse.dropWhile (fun c => c = '/') = s.reverse := by
    cases hr : s.reverse with
    | nil => rfl
    | cons c t =>
      rw [List.dropWhile_cons, if_neg]
      simp only [decide_eq_true_eq]
      intro e
      apply h
      have hh := congrArg List.head? hr
      rw [List.head?_reverse] at hh
      rw [hh]
      simp [e]
  rw [hd, List.reverse_reverse]

theorem urlunsplit_ne_nil (r : SplitResult) (h : r.netloc ≠ []) :
    urlunsplit r ≠ [] := by
  unfold urlunsplit
  dsimp only
  rw [if_pos (Or.inl h)]
  by_cases hs : r.scheme ≠ [] <;>
    by_cases hq : r.query ≠ [] <;>
      by_cases hf : r.fragment ≠ [] <;>
        simp [hs, hq, hf]

theorem urljoinE_fixpoint (b s : Str) (bres : ParseResult) (nl p q : Str)
    (hb : urlparseE b [] = some bres)
    (hs : urlparseE s bres.scheme = some ⟨bres.scheme, nl, p, [], q, []⟩)
    (hnl : nl ≠ [])
    (hnet : bres.scheme ∈ usesNetloc)
    (hre : urlunparse ⟨bres.scheme, nl, p, [], q, []⟩ = s) :
    urljoinE b s = some s := by
  have hsne : s ≠ [] := by
    rw [← hre]
    unfold urlunparse
    dsimp only
    rw [if_neg (by simp)]
    exact urlunsplit_ne_nil ⟨bres.scheme, nl, p, q, []⟩ hnl
  unfold urljoinE
  by_cases hbe : b = []
  · rw [if_pos hbe]
  · rw [if_neg hbe, if_neg hsne, hb]
    dsimp only
    rw [hs]
    dsimp only
    by_cases hrel : bres.scheme ∈ usesRelative
    · rw [if_neg (by simp [hrel]), if_pos ⟨hnet, hnl⟩, hre]
    · rw [if_pos (Or.inr hrel)]

/-- C4 counterexample: normalization is not idempotent.  The
fragment-only reference `#/` normalizes against `https://x.com` to
`https://x.com#` (the trailing slash of the reattached anchor is
stripped), but normalizing that result again gives `https://x.com`. -/
theorem idempotence_counterexample :
    normalizeUrl "#/".data "https://x.com".data = "https://x.com#".data ∧
    normalizeUrl "https://x.com#".data "https://x.com".data = "https://x.com".data ∧
    normalizeUrl (normalizeUrl "#/".data "https://x.com".data) "https://x.com".data ≠
      normalizeUrl "#/".data "https://x.com".data := by
  decide

/-- **C4 (amended).** Normalization is not idempotent for every input
(see the counterexample), but it is on well-formed results: whenever
the first output is fragment-free, does not end in a slash, and
re-parses under the base's scheme as an absolute URL with a nonempty
network location, no parameters and no fragment whose re-assembly
yields the output back, normalizing it again against the same base
returns it unchanged. -/
theorem normalize_idempotent (u b : Str) (bres : ParseResult) (nl p q : Str)
    (hb : urlparseE b [] = some bres)
    (hnet : bres.scheme ∈ usesNetloc)
    (hsplit : urlparseE (normalizeUrl u b) bres.scheme =
      some ⟨bres.scheme, nl, p, [], q, []⟩)
    (hnl : nl ≠ [])
    (hre : urlunparse ⟨bres.scheme, nl, p, [], q, []⟩ = normalizeUrl u b)
    (hhash : '#' ∉ normalizeUrl u b)
    (hlast : (normalizeUrl u b).getLast? ≠ some '/') :
    normalizeUrl (normalizeUrl u b) b = normalizeUrl u b := by
  set s := normalizeUrl u b with hsdef
  have hfix : urljoinE b s = some s :=
    urljoinE_fixpoint b s bres nl p q hb hsplit hnl hnet hre
  unfold normalizeUrl
  rw [pySplit1_of_not_mem '#' s hhash]
  dsimp only
  rw [hfix]
  dsimp only
  rw [if_neg (by simp)]
  exact pyRstripSlash_eq_self s hlast

/-- Witness for the amended C4 on a concrete relative reference. -/
theorem normalize_idempotent_witness :
    normalizeUrl (normalizeUrl "/a".data "https://x.com".data) "https://x.com".data =
      normalizeUrl "/a".data "https://x.com".data :=
  normalize_idempotent "/a".data "https://x.com".data
    ⟨"https".data, "x.com".data, [], [], [], []⟩
    "x.com".data "/a".data []
    (by decide) (by decide) (by decide) (by decide) (by decide) (by decide) (by decide)

end LinkAnalyzer
